import Mathlib

/-!
Verification of the conversational memory / feedback / parsing core of the
journal-entry reconciliation chat application.

The development shallowly embeds:
* `parse_json_response` from `backend/services.py` (the resilient
  structured-response parser), together with a model of the JSON documents it
  consumes (`Json`, `serJson`, `parseValue`);
* the tiered conversation store and feedback workflow of
  `sap_chat_system_fixed.py` (`appendConversation`,
  `update_conversation_with_feedback`, `process_feedback_and_improve`,
  `find_similar_conversations_with_feedback`);
* the context reader of `backend/enhanced_chat_manager.py`
  (`get_conversation_context`, `get_messages_from_vector_db`).
-/

namespace JE

/-! ## JSON documents

The structured objects exchanged with the text-generation collaborator are
JSON documents.  Numbers are modelled as integers and strings as character
lists; object members keep their textual order, as Python dicts do.
-/

inductive Json where
  | null : Json
  | bool (b : Bool) : Json
  | num (n : Int) : Json
  | str (s : List Char) : Json
  | arr (elems : List Json) : Json
  | obj (members : List (List Char × Json)) : Json

/-! ### Serialisation (model of `json.dumps` with compact separators) -/

/-- Escape one character of a JSON string literal. -/
def escChar (c : Char) : List Char :=
  if c = '"' ∨ c = '\\' then ['\\', c] else [c]

/-- Escape the body of a JSON string literal. -/
def escStr : List Char → List Char
  | [] => []
  | c :: cs => escChar c ++ escStr cs

/-- Decimal digits of a natural number, most significant first, with explicit
fuel so that the definition is structural. -/
def natCharsF : Nat → Nat → List Char
  | 0, _ => []
  | _ + 1, 0 => []
  | fuel + 1, n + 1 => natCharsF fuel ((n + 1) / 10) ++ [Nat.digitChar ((n + 1) % 10)]

def natChars (n : Nat) : List Char := natCharsF n n

def serNat (n : Nat) : List Char := if n = 0 then ['0'] else natChars n

def serInt (i : Int) : List Char :=
  if i < 0 then '-' :: serNat i.natAbs else serNat i.toNat

mutual

/-- Serialise a JSON value. -/
def serJson : Json → List Char
  | .null => "null".data
  | .bool true => "true".data
  | .bool false => "false".data
  | .num i => serInt i
  | .str s => '"' :: (escStr s ++ ['"'])
  | .arr xs => '[' :: (serArr xs ++ [']'])
  | .obj ms => '{' :: (serObj ms ++ ['}'])

/-- Serialise the comma-separated elements of an array. -/
def serArr : List Json → List Char
  | [] => []
  | [x] => serJson x
  | x :: y :: xs => serJson x ++ ',' :: serArr (y :: xs)

/-- Serialise the comma-separated members of an object. -/
def serObj : List (List Char × Json) → List Char
  | [] => []
  | [(k, v)] => '"' :: (escStr k ++ '"' :: ':' :: serJson v)
  | (k, v) :: m :: ms =>
      ('"' :: (escStr k ++ '"' :: ':' :: serJson v)) ++ ',' :: serObj (m :: ms)

end

/-! ### Parsing (model of `json.loads`) -/

def isWs (c : Char) : Bool := c = ' ' ∨ c = '\n' ∨ c = '\t' ∨ c = '\r'

def skipWs (cs : List Char) : List Char := cs.dropWhile isWs

def isDigitCh (c : Char) : Bool := decide (48 ≤ c.toNat ∧ c.toNat ≤ 57)

def digitVal (c : Char) : Nat := c.toNat - 48

def digitsToNat (ds : List Char) : Nat :=
  ds.foldl (fun a c => 10 * a + digitVal c) 0

/-- Parse the body of a string literal (the opening quote already consumed). -/
def parseStringBody : List Char → Option (List Char × List Char)
  | [] => none
  | c :: rest =>
    if c = '"' then some ([], rest)
    else if c = '\\' then
      match rest with
      | [] => none
      | e :: rest2 =>
        if e = '"' ∨ e = '\\' then
          match parseStringBody rest2 with
          | some (s, r) => some (e :: s, r)
          | none => none
        else none
    else
      match parseStringBody rest with
      | some (s, r) => some (c :: s, r)
      | none => none

/-- Parse a decimal number token. -/
def parseNumber (cs : List Char) : Option (Json × List Char) :=
  match cs with
  | [] => none
  | c :: rest =>
    if c = '-' then
      if (rest.takeWhile isDigitCh).isEmpty then none
      else some (.num (-(digitsToNat (rest.takeWhile isDigitCh) : Int)),
        rest.dropWhile isDigitCh)
    else
      if ((c :: rest).takeWhile isDigitCh).isEmpty then none
      else some (.num ((digitsToNat ((c :: rest).takeWhile isDigitCh) : Int)),
        (c :: rest).dropWhile isDigitCh)

mutual

/-- Parse one JSON value from the front of the input. -/
def parseValue : Nat → List Char → Option (Json × List Char)
  | 0, _ => none
  | _ + 1, [] => none
  | fuel + 1, c :: rest =>
    if c = 'n' then
      match rest with
      | 'u' :: 'l' :: 'l' :: r => some (.null, r)
      | _ => none
    else if c = 't' then
      match rest with
      | 'r' :: 'u' :: 'e' :: r => some (.bool true, r)
      | _ => none
    else if c = 'f' then
      match rest with
      | 'a' :: 'l' :: 's' :: 'e' :: r => some (.bool false, r)
      | _ => none
    else if c = '"' then
      match parseStringBody rest with
      | some (s, r) => some (.str s, r)
      | none => none
    else if c = '[' then
      match parseElems fuel rest with
      | some (xs, r) => some (.arr xs, r)
      | none => none
    else if c = '{' then
      match parseMembers fuel rest with
      | some (ms, r) => some (.obj ms, r)
      | none => none
    else parseNumber (c :: rest)

/-- Parse the elements of an array after the opening bracket. -/
def parseElems : Nat → List Char → Option (List Json × List Char)
  | 0, _ => none
  | _ + 1, [] => none
  | fuel + 1, c :: cs =>
    if c = ']' then some ([], cs)
    else
      match parseValue fuel (c :: cs) with
      | some (x, r) =>
        match r with
        | ',' :: r2 =>
          match parseElems fuel r2 with
          | some (xs, r3) => some (x :: xs, r3)
          | none => none
        | ']' :: r2 => some ([x], r2)
        | _ => none
      | none => none

/-- Parse the members of an object after the opening brace. -/
def parseMembers : Nat → List Char → Option (List (List Char × Json) × List Char)
  | 0, _ => none
  | _ + 1, [] => none
  | fuel + 1, c :: cs =>
    if c = '}' then some ([], cs)
    else if c = '"' then
      match parseStringBody cs with
      | some (k, r1) =>
        match r1 with
        | ':' :: r2 =>
          match parseValue fuel r2 with
          | some (v, r3) =>
            match r3 with
            | ',' :: r4 =>
              match parseMembers fuel r4 with
              | some (ms, r5) => some ((k, v) :: ms, r5)
              | none => none
            | '}' :: r4 => some ([(k, v)], r4)
            | _ => none
          | none => none
        | _ => none
      | none => none
    else none

end

/-- Parse a whole document: one JSON value with only whitespace around it
(model of a `json.loads` call). -/
def parseDoc (cs : List Char) : Option Json :=
  let cs2 := skipWs cs
  match parseValue (2 * cs2.length + 2) cs2 with
  | some (v, rest) => if skipWs rest = [] then some v else none
  | none => none

/-- Whether the remaining input may directly follow a number token without
changing its reading. -/
def delimOk : List Char → Bool
  | [] => true
  | c :: _ => !(isDigitCh c)

/-! ## The resilient structured-response parser

Model of `parse_json_response` from `backend/services.py`: a direct parse,
then extraction of the first fenced ```json code block via the greedy regex
`r'```json\s*({.*})\s*```'`, then a balanced-brace scan from the first
opening brace.  Failures are reported in band as a dict carrying an
`error` key, exactly as the source does.
-/

def fenceTag : List Char := ['`', '`', '`', 'j', 's', 'o', 'n']

/-- Remainder of the input after the first occurrence of `pat`, or `none`
when `pat` does not occur. -/
def afterFirst (pat : List Char) : List Char → Option (List Char)
  | [] => if pat.isEmpty then some [] else none
  | c :: cs =>
    if pat.isPrefixOf (c :: cs) then some ((c :: cs).drop pat.length)
    else afterFirst pat cs

/-- Whether a suffix can close the fenced block: optional whitespace and then
three backticks (the `\s*` and closing fence of the regex). -/
def closesFence (suffix : List Char) : Bool :=
  ['`', '`', '`'].isPrefixOf (skipWs suffix)

/-- Prefix of the input up to and including the last closing brace whose
suffix closes the fence; models the greedy capture `({.*})`. -/
def captureToLastQual : List Char → Option (List Char)
  | [] => none
  | c :: cs =>
    match captureToLastQual cs with
    | some inner => some (c :: inner)
    | none => if c = '}' ∧ closesFence cs = true then some ['}'] else none

/-- Extraction of the first fenced ```json block's brace-delimited capture. -/
def extractFenced (cs : List Char) : Option (List Char) :=
  match afterFirst fenceTag cs with
  | none => none
  | some rest0 =>
    match skipWs rest0 with
    | '{' :: tail =>
      match captureToLastQual tail with
      | some inner => some ('{' :: inner)
      | none => none
    | _ => none

/-- Walk the input counting brace depth, accumulating the candidate document;
models the balanced-brace loop of the source (`brace_count` starting at the
first opening brace). -/
def braceWalk : List Char → Nat → List Char → Option (List Char)
  | [], _, _ => none
  | c :: cs, depth, acc =>
    if c = '{' then braceWalk cs (depth + 1) (acc ++ [c])
    else if c = '}' then
      if depth = 1 then some (acc ++ [c])
      else braceWalk cs (depth - 1) (acc ++ [c])
    else braceWalk cs depth (acc ++ [c])

/-- Balanced-brace extraction starting from the first opening brace
(`response_content.find('{')`); `none` when no brace occurs or the walk
never returns to depth zero. -/
def balancedExtract (cs : List Char) : Option (List Char) :=
  match cs.dropWhile (fun c => !(c = '{')) with
  | [] => none
  | c :: cs2 => braceWalk (c :: cs2) 0 []

/-- The fixed failure message of the in-band error object. -/
def parseErrorMsg : List Char :=
  "Failed to parse JSON: Could not extract valid JSON from response".toList

/-- The in-band error object the source returns when no strategy recovers a
document. -/
def parseErrorJson : Json := .obj [("error".toList, .str parseErrorMsg)]

/-- Model of `parse_json_response`.  Any parse failure inside the recovery
block aborts to the error object: in the source an exception raised by
`json.loads` on the fenced capture jumps to the exception handler, so a
fenced block whose contents fail to parse does not fall through to the
brace scan. -/
def parse_json_response (cs : List Char) : Json :=
  match parseDoc cs with
  | some v => v
  | none =>
    match extractFenced cs with
    | some block =>
      match parseDoc block with
      | some v => v
      | none => parseErrorJson
    | none =>
      match balancedExtract cs with
      | some cand =>
        match parseDoc cand with
        | some v => v
        | none => parseErrorJson
      | none => parseErrorJson

/-- Characters that keep a JSON string clear of the fencing and brace
machinery: no braces and no backticks. -/
def tameChar (c : Char) : Bool := !(c = '{' || c = '}' || c = '`')

mutual

/-- A JSON value all of whose string literals (keys and values) consist of
tame characters. -/
def tameJ : Json → Bool
  | .null => true
  | .bool _ => true
  | .num _ => true
  | .str s => s.all tameChar
  | .arr xs => tameA xs
  | .obj ms => tameO ms

def tameA : List Json → Bool
  | [] => true
  | x :: xs => tameJ x && tameA xs

def tameO : List (List Char × Json) → Bool
  | [] => true
  | (k, v) :: ms => k.all tameChar && tameJ v && tameO ms

end

/-- The opening of a fenced code block tagged `json`. -/
def fenceOpen : List Char := ['`', '`', '`', 'j', 's', 'o', 'n', '\n']

/-- The closing of a fenced code block. -/
def fenceClose : List Char := ['\n', '`', '`', '`']

/-- Prose characters: letters, spaces and periods.  They can neither open a
JSON token, nor contain braces or backticks. -/
def proseCh (c : Char) : Bool :=
  decide ((65 ≤ c.toNat ∧ c.toNat ≤ 90) ∨ (97 ≤ c.toNat ∧ c.toNat ≤ 122) ∨
    c.toNat = 32 ∨ c.toNat = 46)

/-- Observer distinguishing the in-band error object from other objects. -/
def firstKeyLen : Json → Nat
  | .obj ((k, _) :: _) => k.length
  | _ => 0

/-! ## The tiered conversation store (`sap_chat_system_fixed.py`)

State model: the per-user hot deque `conversation_history` (`maxlen=3`, most
recent last), the JSON chat-data archive (append order) and the per-user
ChromaDB conversation collection (insertion order).  Fresh uuids, timestamps
and the external LLM output are passed as explicit parameters.
-/

/-- An entry of the in-memory recency deque (`conversation_history`). -/
structure HotEntry where
  question : String
  answer : String
  timestamp : String
deriving DecidableEq

/-- A record of the JSON chat-data archive (`chat_system_data.json`). -/
structure ConvRecord where
  conversation_id : String
  user_id : String
  timestamp : String
  question : String
  response : String
  rating : Option Int
  feedback : Option String
  improved_response : Option String
deriving DecidableEq

/-- A record of the per-user ChromaDB conversation collection.  The document
text `Q:/A:/Feedback:/Improved:` is modelled by its fields; the metadata
carries `user_id`, `timestamp` and optionally `rating` — feedback text and
improvement never enter the metadata. -/
structure ChromaRecord where
  id : String
  user_id : String
  timestamp : String
  rating : Option Int
  question : String
  answer : String
  feedback : Option String
  improved_response : Option String
deriving DecidableEq

/-- Combined mutable state of one `SAPChatSystem` session. -/
structure ChatState where
  history : List HotEntry
  conversations : List ConvRecord
  chroma : List ChromaRecord
deriving DecidableEq

/-- Deque push with `maxlen=3`: append, then drop from the front down to
three entries. -/
def pushHot (h : List HotEntry) (e : HotEntry) : List HotEntry :=
  (h ++ [e]).drop ((h ++ [e]).length - 3)

/-- Model of `add_conversation_to_chat_data`: append a fresh record to the
JSON archive. -/
def add_conversation_to_chat_data (uid q resp : String) (rating : Option Int)
    (fb improved : Option String) (freshId ts : String)
    (convs : List ConvRecord) : List ConvRecord :=
  convs ++ [⟨freshId, uid, ts, q, resp, rating, fb, improved⟩]

/-- Model of `store_conversation_in_chromadb`: always insert a fresh
document under a fresh id. -/
def store_conversation_in_chromadb (uid q a : String) (rating : Option Int)
    (fb improved : Option String) (freshId ts : String)
    (col : List ChromaRecord) : List ChromaRecord :=
  col ++ [⟨freshId, uid, ts, rating, q, a, fb, improved⟩]

/-- The unrated exact match condition of the feedback scan. -/
def feedbackMatch (uid q resp : String) (r : ConvRecord) : Prop :=
  r.user_id = uid ∧ r.question = q ∧ r.response = resp ∧ r.rating = none

instance (uid q resp : String) (r : ConvRecord) :
    Decidable (feedbackMatch uid q resp r) := by
  unfold feedbackMatch
  infer_instance

/-- Set the feedback fields on a record. -/
def rateRecord (rating : Int) (fb improved : Option String) (r : ConvRecord) :
    ConvRecord :=
  { r with rating := some rating, feedback := fb, improved_response := improved }

/-- The reverse-chronological scan of `update_conversation_with_feedback`:
the latest unrated exact match is rated in place; `none` when no match
exists. -/
def updateFromEnd (uid q resp : String) (rating : Int) (fb improved : Option String) :
    List ConvRecord → Option (List ConvRecord)
  | [] => none
  | r :: rs =>
    match updateFromEnd uid q resp rating fb improved rs with
    | some rs2 => some (r :: rs2)
    | none =>
      if feedbackMatch uid q resp r then
        some (rateRecord rating fb improved r :: rs)
      else none

/-- Model of `update_conversation_with_feedback`: rate the most recent
unrated match in place; when no match exists, fall back to appending a new,
already rated record via `add_conversation_to_chat_data`. -/
def update_conversation_with_feedback (uid q resp : String) (rating : Int)
    (fb improved : Option String) (freshId ts : String)
    (convs : List ConvRecord) : List ConvRecord :=
  match updateFromEnd uid q resp rating fb improved convs with
  | some convs2 => convs2
  | none =>
    add_conversation_to_chat_data uid q resp (some rating) fb improved freshId ts convs

/-- Python truthiness of an optional string: `None` and the empty string are
falsy. -/
def strTruthy : Option String → Bool
  | none => false
  | some s => !(s = "")

/-- Replace every occurrence of `pat` (non-empty) by `rep`, left to right,
with explicit fuel so the definition is structural (model of Python
`str.replace`). -/
def replaceAllF : Nat → List Char → List Char → List Char → List Char
  | 0, _, _, rest => rest
  | _ + 1, _, _, [] => []
  | fuel + 1, pat, rep, c :: cs =>
    if pat.isPrefixOf (c :: cs) then
      rep ++ replaceAllF fuel pat rep ((c :: cs).drop pat.length)
    else c :: replaceAllF fuel pat rep cs

def replaceAll (pat rep cs : List Char) : List Char :=
  replaceAllF cs.length pat rep cs

/-- Strip leading and trailing whitespace (model of Python `str.strip`). -/
def pyStrip (cs : List Char) : List Char :=
  ((cs.dropWhile isWs).reverse.dropWhile isWs).reverse

/-- The markdown sanitisation applied to the generated improvement in
`get_improved_response`: strip `**`, `*`, `###`, `##`, `#`, then fencing
backticks, then surrounding whitespace — in the source's order. -/
def sanitize (s : String) : String :=
  String.mk (pyStrip (replaceAll "```".toList []
    (replaceAll "#".toList [] (replaceAll "##".toList []
      (replaceAll "###".toList [] (replaceAll "*".toList []
        (replaceAll "**".toList [] s.data)))))))

/-- The in-place update of the hot deque's most recent entry performed by
`process_feedback_and_improve`: only when the last entry's question matches
and a truthy improved answer exists is that entry's answer replaced. -/
def updateLastAnswer (h : List HotEntry) (q : String) (improved : Option String) :
    List HotEntry :=
  match h.getLast? with
  | none => h
  | some e =>
    if e.question = q then
      match improved with
      | some imp => if imp = "" then h else h.dropLast ++ [{ e with answer := imp }]
      | none => h
    else h

/-- Model of `process_feedback_and_improve`: the improvement is generated
precisely when `rating < 5 and feedback_text` holds (the external
text-generation call is the parameter `genOutput`); the hot deque's last
entry is updated in place; the JSON archive is updated through
`update_conversation_with_feedback`; and a fresh document is always inserted
into the similarity collection. -/
def process_feedback_and_improve (uid q origResp : String) (rating : Int)
    (feedback_text : Option String) (genOutput : String)
    (freshId ts chromaId : String) (st : ChatState) : Option String × ChatState :=
  let improved : Option String :=
    if rating < 5 ∧ strTruthy feedback_text = true then some (sanitize genOutput)
    else none
  ( improved,
    { history := updateLastAnswer st.history q improved,
      conversations := update_conversation_with_feedback uid q origResp rating
        feedback_text improved freshId ts st.conversations,
      chroma := store_conversation_in_chromadb uid q origResp (some rating)
        feedback_text improved chromaId ts st.chroma } )

/-- The persistence effects of one question-answer exchange in
`get_response`: push onto the hot deque and append an unrated record to the
JSON archive (ChromaDB storage happens only when a rating arrives). -/
def appendConversation (uid q a freshId ts : String) (st : ChatState) : ChatState :=
  { st with
    history := pushHot st.history ⟨q, a, ts⟩,
    conversations :=
      add_conversation_to_chat_data uid q a none none none freshId ts st.conversations }

/-- A sequence of question-answer exchanges, each given as
(question, answer, fresh id, timestamp). -/
def foldAppend (uid : String) (st : ChatState)
    (ops : List (String × String × String × String)) : ChatState :=
  ops.foldl (fun s op => appendConversation uid op.1 op.2.1 op.2.2.1 op.2.2.2 s) st

/-! ## The exemplar retriever (`find_similar_conversations_with_feedback`)

The similarity ranking is external (an embedding index); the model receives
it as `ranked`, the user's collection listed most-similar-first, and
`allUser`, the same collection in insertion order as `collection.get`
returns it.  The query result is the first `min(3k, 15)` ranked hits.
-/

/-- A conversation view as assembled by the retriever from a similarity hit:
document text parsed back into fields, rating and timestamp from metadata. -/
structure ConvView where
  question : String
  response : String
  rating : Option Int
  feedback : Option String
  improved_response : Option String
  timestamp : String
deriving DecidableEq

/-- View of a similarity hit: the parsed document carries feedback and
improvement. -/
def toView (r : ChromaRecord) : ConvView :=
  ⟨r.question, r.answer, r.rating, r.feedback, r.improved_response, r.timestamp⟩

/-- View of a full-scan hit: the source reads feedback and improvement from
the metadata, where they were never stored, so both are `None`. -/
def fallbackView (r : ChromaRecord) : ConvView :=
  ⟨r.question, r.answer, r.rating, none, none, r.timestamp⟩

/-- The sort key `x.get('rating') or 0` (`None` and 0 are both falsy). -/
def ratingKey (c : ConvView) : Int := c.rating.getD 0

/-- The stable descending sort by rating performed by
`similar_conversations.sort(key=..., reverse=True)`; Python's sort is
stable, and any stable sort by the same key equals this insertion sort. -/
def sortDesc (l : List ConvView) : List ConvView :=
  List.insertionSort (fun a b => ratingKey b ≤ ratingKey a) l

/-- Good example: rated and rating at least 4. -/
def goodB (c : ConvView) : Bool :=
  match c.rating with
  | some r => decide (4 ≤ r)
  | none => false

/-- Bad example: rated and rating at most 2. -/
def badB (c : ConvView) : Bool :=
  match c.rating with
  | some r => decide (r ≤ 2)
  | none => false

/-- The fallback's metadata test `rating is not None and rating <= 2`. -/
def badMeta (r : ChromaRecord) : Bool :=
  match r.rating with
  | some v => decide (v ≤ 2)
  | none => false

/-- A rated record with rating at least 4 (metadata form). -/
def goodMeta (r : ChromaRecord) : Bool :=
  match r.rating with
  | some v => decide (4 ≤ v)
  | none => false

/-- First record with rating at most 2 in the full user scan. -/
def firstBad : List ChromaRecord → Option ChromaRecord
  | [] => none
  | r :: rs => if badMeta r then some r else firstBad rs

/-- The similarity query result: up to `min(3 * top_k, 15)` hits. -/
def simResults (ranked : List ChromaRecord) (k : Nat) : List ChromaRecord :=
  ranked.take (min (k * 3) 15)

/-- The query hits converted to views and sorted by rating, descending. -/
def simViews (ranked : List ChromaRecord) (k : Nat) : List ConvView :=
  sortDesc ((simResults ranked k).map toView)

/-- Model of `find_similar_conversations_with_feedback`: empty query results
short-circuit to an empty list; otherwise the first good and first bad of
the rating-descending order are selected, and when no bad hit appears among
the similarity results the first bad record of the full user scan is
appended. -/
def find_similar_conversations_with_feedback (ranked allUser : List ChromaRecord)
    (k : Nat) : List ConvView :=
  if simResults ranked k = [] then []
  else
    (match ((simViews ranked k).filter goodB).head? with
      | some g => [g]
      | none => []) ++
    (match ((simViews ranked k).filter badB).head? with
      | some b => [b]
      | none => []) ++
    (if (simViews ranked k).filter badB = [] then
      match firstBad allUser with
      | some r => [fallbackView r]
      | none => []
    else [])

instance : IsTotal ConvView (fun a b => ratingKey b ≤ ratingKey a) :=
  ⟨fun a b => le_total (ratingKey b) (ratingKey a)⟩

instance : IsTrans ConvView (fun a b => ratingKey b ≤ ratingKey a) :=
  ⟨fun _ _ _ hab hbc => le_trans hbc hab⟩

/-! ## The context reader (`backend/enhanced_chat_manager.py`) -/

/-- A conversation held in the manager's recent deque. -/
structure ConvData where
  conversation_id : String
  session_id : String
  user_id : String
  title : String
  created_at : String
  messages : List (String × String)
deriving DecidableEq

/-- A record of the `messages` collection. -/
structure MsgRecord where
  id : String
  conversation_id : String
  user_message : String
  bot_response : String
  timestamp : String
deriving DecidableEq

/-- State of the `EnhancedChatManager`: per-user recent deques, the
`messages` collection in insertion order, and the conversation-to-user
attribution kept in the `conversations` collection metadata. -/
structure ManagerState where
  recent : List (String × List ConvData)
  messages : List MsgRecord
  conversations_meta : List (String × String)
deriving DecidableEq

/-- Read-only view of `_get_user_recent_conversations`: a missing user has
an empty deque. -/
def getRecent (st : ManagerState) (uid : String) : List ConvData :=
  (st.recent.lookup uid).getD []

/-- The last `n` elements of a list (Python slicing from the end). -/
def takeLast {α : Type} (n : Nat) (l : List α) : List α := l.drop (l.length - n)

/-- Stable ascending sort of message records by timestamp, as
`sorted(metadatas, key=timestamp)` performs. -/
def sortByTs (l : List MsgRecord) : List MsgRecord :=
  List.insertionSort (fun a b => a.timestamp ≤ b.timestamp) l

/-- Model of `get_messages_from_vector_db`: filter by conversation id when
one is given — the empty string means no filter at all, any conversation of
any user — take at most `limit` records in insertion order, sort them by
timestamp and project the message pairs. -/
def get_messages_from_vector_db (st : ManagerState) (cid : String) (limit : Nat) :
    List (String × String) :=
  (sortByTs ((if cid = "" then st.messages
    else st.messages.filter (fun m => m.conversation_id = cid)).take limit)).map
    (fun m => (m.user_message, m.bot_response))

/-- The general hot context: the last two recent conversations' last three
message pairs each, flattened. -/
def hotContext (st : ManagerState) (uid : String) : List (String × String) :=
  ((takeLast 2 (getRecent st uid)).map (fun conv => takeLast 3 conv.messages)).flatten

/-- The non-resident branch of `get_conversation_context`: pad the hot
context from the vector store when it has fewer than five turns, then keep
the last ten. -/
def generalContext (st : ManagerState) (uid : String) (cid : Option String) :
    List (String × String) :=
  takeLast 10 (if (hotContext st uid).length < 5 then
    hotContext st uid ++ get_messages_from_vector_db st (cid.getD "") 5
  else hotContext st uid)

/-- Model of `get_conversation_context`: a conversation id resident in the
recent deque short-circuits to that conversation's last ten turns; otherwise
the general path runs, with the id (or nothing) forwarded to the vector
query. -/
def get_conversation_context (st : ManagerState) (uid : String)
    (cid : Option String) : List (String × String) :=
  match cid with
  | some c =>
    match (getRecent st uid).find? (fun conv => conv.conversation_id = c) with
    | some conv => takeLast 10 conv.messages
    | none => generalContext st uid (some c)
  | none => generalContext st uid none

/-! ### Round-trip lemmas -/

theorem delimOk_cons (c : Char) (l : List Char) : delimOk (c :: l) = !(isDigitCh c) := rfl

theorem takeWhile_append_all {p : Char → Bool} :
    ∀ (l r : List Char), (∀ c ∈ l, p c = true) → (l ++ r).takeWhile p = l ++ r.takeWhile p
  | [], _, _ => by simp
  | c :: l, r, h => by
    have hc : p c = true := h c (by simp)
    simp only [List.cons_append, List.takeWhile_cons, hc, if_true]
    rw [takeWhile_append_all l r (fun d hd => h d (by simp [hd]))]

theorem dropWhile_append_all {p : Char → Bool} :
    ∀ (l r : List Char), (∀ c ∈ l, p c = true) → (l ++ r).dropWhile p = r.dropWhile p
  | [], _, _ => by simp
  | c :: l, r, h => by
    have hc : p c = true := h c (by simp)
    simp only [List.cons_append, List.dropWhile_cons, hc, if_true]
    exact dropWhile_append_all l r (fun d hd => h d (by simp [hd]))

theorem takeWhile_nil_of_delimOk {l : List Char} (h : delimOk l = true) :
    l.takeWhile isDigitCh = [] := by
  cases l with
  | nil => rfl
  | cons c t =>
    rw [delimOk_cons] at h
    simp only [List.takeWhile_cons, Bool.not_eq_true'] at h ⊢
    simp [h]

theorem dropWhile_self_of_delimOk {l : List Char} (h : delimOk l = true) :
    l.dropWhile isDigitCh = l := by
  cases l with
  | nil => rfl
  | cons c t =>
    rw [delimOk_cons] at h
    simp only [List.dropWhile_cons, Bool.not_eq_true'] at h ⊢
    simp [h]

theorem digitVal_digitChar {d : Nat} (h : d < 10) : digitVal (Nat.digitChar d) = d := by
  interval_cases d <;> decide

theorem isDigitCh_digitChar {d : Nat} (h : d < 10) : isDigitCh (Nat.digitChar d) = true := by
  interval_cases d <;> decide

theorem natCharsF_eq : ∀ fuel n, n ≤ fuel →
    natCharsF fuel n = ((Nat.digits 10 n).map Nat.digitChar).reverse := by
  intro fuel
  induction fuel with
  | zero =>
    intro n hn
    interval_cases n
    simp [natCharsF]
  | succ fuel ih =>
    intro n hn
    match n with
    | 0 => simp [natCharsF]
    | m + 1 =>
      have hdiv : (m + 1) / 10 ≤ fuel := by
        have := Nat.div_lt_self (Nat.succ_pos m) (by norm_num : 1 < 10)
        omega
      rw [natCharsF, ih _ hdiv,
        Nat.digits_def' (by norm_num : 1 < 10) (Nat.succ_pos m)]
      simp

theorem natChars_eq (n : Nat) :
    natChars n = ((Nat.digits 10 n).map Nat.digitChar).reverse :=
  natCharsF_eq n n le_rfl

theorem natChars_all_digits {n : Nat} : ∀ c ∈ natChars n, isDigitCh c = true := by
  intro c hc
  rw [natChars_eq] at hc
  simp only [List.mem_reverse, List.mem_map] at hc
  obtain ⟨d, hd, rfl⟩ := hc
  exact isDigitCh_digitChar (Nat.digits_lt_base (by norm_num) hd)

theorem natChars_ne_nil {n : Nat} (h : n ≠ 0) : natChars n ≠ [] := by
  rw [natChars_eq]
  simp [Nat.digits_ne_nil_iff_ne_zero.mpr h]

theorem foldr_digits_eq (L : List Nat) (h : ∀ d ∈ L, d < 10) :
    L.foldr (fun d y => 10 * y + digitVal (Nat.digitChar d)) 0 = Nat.ofDigits 10 L := by
  induction L with
  | nil => simp
  | cons d L ih =>
    have hd : d < 10 := h d (by simp)
    rw [List.foldr_cons, ih (fun e he => h e (by simp [he])), Nat.ofDigits_cons,
      digitVal_digitChar hd]
    omega

theorem digitsToNat_natChars (n : Nat) : digitsToNat (natChars n) = n := by
  rw [digitsToNat, natChars_eq, List.foldl_reverse, List.foldr_map]
  rw [foldr_digits_eq _ (fun d hd => Nat.digits_lt_base (by norm_num) hd)]
  exact Nat.ofDigits_digits 10 n

theorem serNat_all_digits {n : Nat} : ∀ c ∈ serNat n, isDigitCh c = true := by
  intro c hc
  by_cases h : n = 0
  · subst h
    rw [show serNat 0 = ['0'] from rfl] at hc
    simp only [List.mem_singleton] at hc
    subst hc; decide
  · rw [serNat, if_neg h] at hc
    exact natChars_all_digits c hc

theorem serNat_ne_nil (n : Nat) : serNat n ≠ [] := by
  by_cases h : n = 0
  · subst h; simp [serNat]
  · rw [serNat, if_neg h]; exact natChars_ne_nil h

theorem digitsToNat_serNat (n : Nat) : digitsToNat (serNat n) = n := by
  by_cases h : n = 0
  · subst h; decide
  · rw [serNat, if_neg h]; exact digitsToNat_natChars n

theorem parseNumber_ser (i : Int) (rest : List Char) (hd : delimOk rest = true) :
    parseNumber (serInt i ++ rest) = some (.num i, rest) := by
  rcases lt_or_le i 0 with hi | hi
  · rw [serInt, if_pos hi]
    have hall := fun c hc => @serNat_all_digits i.natAbs c hc
    have hTW : (serNat i.natAbs ++ rest).takeWhile isDigitCh = serNat i.natAbs := by
      rw [takeWhile_append_all _ _ hall, takeWhile_nil_of_delimOk hd, List.append_nil]
    have hDW : (serNat i.natAbs ++ rest).dropWhile isDigitCh = rest := by
      rw [dropWhile_append_all _ _ hall, dropWhile_self_of_delimOk hd]
    have hne : (serNat i.natAbs).isEmpty = false := by
      cases h : serNat i.natAbs with
      | nil => exact absurd h (serNat_ne_nil _)
      | cons a l => rfl
    rw [List.cons_append, parseNumber.eq_def]
    have hv : -((i.natAbs : Int)) = i := by omega
    simp only [hTW, hDW, hne, if_pos rfl, Bool.false_eq_true, if_false,
      digitsToNat_serNat, hv, if_true]
  · rw [serInt, if_neg (not_lt.mpr hi)]
    obtain ⟨c, t, hct⟩ : ∃ c t, serNat i.toNat = c :: t := by
      cases h : serNat i.toNat with
      | nil => exact absurd h (serNat_ne_nil _)
      | cons a l => exact ⟨a, l, rfl⟩
    have hcd : isDigitCh c = true := @serNat_all_digits i.toNat c (by simp [hct])
    have hcm : c ≠ '-' := by
      intro h; subst h; exact absurd hcd (by decide)
    have hall := fun d hd2 => @serNat_all_digits i.toNat d hd2
    have hTW : (serNat i.toNat ++ rest).takeWhile isDigitCh = serNat i.toNat := by
      rw [takeWhile_append_all _ _ hall, takeWhile_nil_of_delimOk hd, List.append_nil]
    have hDW : (serNat i.toNat ++ rest).dropWhile isDigitCh = rest := by
      rw [dropWhile_append_all _ _ hall, dropWhile_self_of_delimOk hd]
    rw [hct] at hTW hDW ⊢
    rw [List.cons_append, parseNumber.eq_def]
    simp only [hcm, if_false]
    rw [← List.cons_append, hTW, hDW,
      show ((c :: t : List Char).isEmpty = false) from rfl]
    simp only [Bool.false_eq_true, if_false]
    rw [← hct, digitsToNat_serNat, show ((i.toNat : Nat) : Int) = i by omega]

theorem parseStringBody_esc : ∀ (s rest : List Char),
    parseStringBody (escStr s ++ '"' :: rest) = some (s, rest)
  | [], rest => by
    rw [show escStr [] = [] from rfl, List.nil_append, parseStringBody.eq_def]
    simp
  | c :: cs, rest => by
    by_cases h : c = '"' ∨ c = '\\'
    · have h1 : escChar c = ['\\', c] := by rw [escChar, if_pos h]
      have h2 : ('\\' : Char) ≠ '"' := by decide
      rw [show escStr (c :: cs) = escChar c ++ escStr cs from rfl, h1]
      simp only [List.cons_append, List.nil_append, List.append_assoc]
      rw [parseStringBody.eq_def]
      simp only [h2, if_false, if_pos rfl, h, if_true, parseStringBody_esc cs rest]
    · have h1 : escChar c = [c] := by rw [escChar, if_neg h]
      push_neg at h
      rw [show escStr (c :: cs) = escChar c ++ escStr cs from rfl, h1]
      simp only [List.cons_append, List.nil_append, List.append_assoc]
      rw [parseStringBody.eq_def]
      simp only [h.1, h.2, if_false, parseStringBody_esc cs rest]

theorem isDigitCh_facts {c : Char} (h : isDigitCh c = true) :
    isWs c = false ∧ c ≠ ']' ∧ c ≠ 'n' ∧ c ≠ 't' ∧ c ≠ 'f' ∧ c ≠ '"' ∧
      c ≠ '[' ∧ c ≠ '{' ∧ c ≠ '-' ∧ c ≠ '}' ∧ c ≠ '`' := by
  have hb := of_decide_eq_true h
  refine ⟨?_, ?_, ?_, ?_, ?_, ?_, ?_, ?_, ?_, ?_, ?_⟩
  · rw [show isWs c = decide (c = ' ' ∨ c = '\n' ∨ c = '\t' ∨ c = '\r') from rfl,
      decide_eq_false_iff_not]
    rintro (rfl | rfl | rfl | rfl) <;> exact absurd hb (by decide)
  all_goals exact fun h2 => absurd hb (by rw [h2]; decide)

theorem numHead_facts {c : Char} (h : c = '-' ∨ isDigitCh c = true) :
    c ≠ 'n' ∧ c ≠ 't' ∧ c ≠ 'f' ∧ c ≠ '"' ∧ c ≠ '[' ∧ c ≠ '{' := by
  rcases h with rfl | h
  · exact ⟨by decide, by decide, by decide, by decide, by decide, by decide⟩
  · obtain ⟨-, -, h3, h4, h5, h6, h7, h8, -, -, -⟩ := isDigitCh_facts h
    exact ⟨h3, h4, h5, h6, h7, h8⟩

theorem serNat_cons (n : Nat) : ∃ c t, serNat n = c :: t ∧ isDigitCh c = true := by
  obtain ⟨c, t, hct⟩ : ∃ c t, serNat n = c :: t := by
    cases h : serNat n with
    | nil => exact absurd h (serNat_ne_nil _)
    | cons a l => exact ⟨a, l, rfl⟩
  exact ⟨c, t, hct, serNat_all_digits c (by rw [hct]; exact List.mem_cons_self c t)⟩

theorem serInt_head (i : Int) :
    ∃ c t, serInt i = c :: t ∧ (c = '-' ∨ isDigitCh c = true) := by
  by_cases hi : i < 0
  · exact ⟨'-', serNat i.natAbs, by rw [serInt, if_pos hi], Or.inl rfl⟩
  · obtain ⟨c, t, hct, hc⟩ := serNat_cons i.toNat
    exact ⟨c, t, by rw [serInt, if_neg hi, hct], Or.inr hc⟩

theorem serJson_cons (x : Json) :
    ∃ c t, serJson x = c :: t ∧ isWs c = false ∧ c ≠ ']' := by
  match x with
  | .null => exact ⟨'n', _, rfl, by decide, by decide⟩
  | .bool true => exact ⟨'t', _, rfl, by decide, by decide⟩
  | .bool false => exact ⟨'f', _, rfl, by decide, by decide⟩
  | .str s => exact ⟨'"', _, rfl, by decide, by decide⟩
  | .arr xs => exact ⟨'[', _, rfl, by decide, by decide⟩
  | .obj ms => exact ⟨'{', _, rfl, by decide, by decide⟩
  | .num i =>
    obtain ⟨c, t, hct, hc⟩ := serInt_head i
    rcases hc with rfl | hc
    · exact ⟨'-', t, hct, by decide, by decide⟩
    · obtain ⟨hw, hr, -, -, -, -, -, -, -, -, -⟩ := isDigitCh_facts hc
      exact ⟨c, t, hct, hw, hr⟩

theorem delim_comma (l : List Char) : delimOk (',' :: l) = true := by
  rw [delimOk_cons]; decide

theorem delim_rbracket (l : List Char) : delimOk (']' :: l) = true := by
  rw [delimOk_cons]; decide

theorem delim_rbrace (l : List Char) : delimOk ('}' :: l) = true := by
  rw [delimOk_cons]; decide

/-- Core round-trip property of the document parser against the serialiser,
proved for all three mutual parsing functions at once by strong induction on
the fuel. -/
theorem parse_ser_aux : ∀ fuel : Nat,
    (∀ x rest, 2 * (serJson x).length ≤ fuel → delimOk rest = true →
      parseValue fuel (serJson x ++ rest) = some (x, rest)) ∧
    (∀ xs rest, 2 * (serArr xs).length + 1 ≤ fuel →
      parseElems fuel (serArr xs ++ ']' :: rest) = some (xs, rest)) ∧
    (∀ ms rest, 2 * (serObj ms).length + 1 ≤ fuel →
      parseMembers fuel (serObj ms ++ '}' :: rest) = some (ms, rest)) := by
  intro fuel
  induction fuel using Nat.strong_induction_on with
  | _ fuel ih =>
  cases fuel with
  | zero =>
    refine ⟨?_, ?_, ?_⟩
    · intro x rest hf _
      obtain ⟨c, t, hct, -, -⟩ := serJson_cons x
      rw [hct, List.length_cons] at hf
      omega
    · intro xs rest hb
      omega
    · intro ms rest hb
      omega
  | succ fuel =>
    obtain ⟨ihV, ihE, ihM⟩ := ih fuel (Nat.lt_succ_self fuel)
    refine ⟨?_, ?_, ?_⟩
    · intro x rest hf hd
      match x with
      | .null => simp [serJson, parseValue]
      | .bool true => simp [serJson, parseValue]
      | .bool false => simp [serJson, parseValue]
      | .num i =>
        obtain ⟨c, t, hct, hc⟩ := serInt_head i
        obtain ⟨h1, h2, h3, h4, h5, h6⟩ := numHead_facts hc
        rw [show serJson (.num i) = serInt i from rfl, hct, List.cons_append]
        simp only [parseValue, h1, h2, h3, h4, h5, h6, if_false]
        rw [← List.cons_append, ← hct]
        exact parseNumber_ser i rest hd
      | .str s =>
        rw [show serJson (.str s) = '"' :: (escStr s ++ ['"']) from rfl]
        simp only [List.cons_append, List.append_assoc, List.singleton_append]
        simp [parseValue, parseStringBody_esc s rest]
      | .arr xs =>
        have hlen : 2 * (serArr xs).length + 1 ≤ fuel := by
          rw [show serJson (.arr xs) = '[' :: (serArr xs ++ [']']) from rfl,
            List.length_cons, List.length_append, List.length_singleton] at hf
          omega
        rw [show serJson (.arr xs) = '[' :: (serArr xs ++ [']']) from rfl]
        simp only [List.cons_append, List.append_assoc, List.singleton_append]
        simp [parseValue, ihE xs rest hlen]
      | .obj ms =>
        have hlen : 2 * (serObj ms).length + 1 ≤ fuel := by
          rw [show serJson (.obj ms) = '{' :: (serObj ms ++ ['}']) from rfl,
            List.length_cons, List.length_append, List.length_singleton] at hf
          omega
        rw [show serJson (.obj ms) = '{' :: (serObj ms ++ ['}']) from rfl]
        simp only [List.cons_append, List.append_assoc, List.singleton_append]
        simp [parseValue, ihM ms rest hlen]
    · intro xs rest hb
      match xs with
      | [] => simp [serArr, parseElems]
      | [x] =>
        obtain ⟨c, t, hct, -, hcne⟩ := serJson_cons x
        have hfx : 2 * (serJson x).length ≤ fuel := by
          rw [show serArr [x] = serJson x from rfl] at hb
          omega
        have hpv := ihV x (']' :: rest) hfx (delim_rbracket rest)
        rw [hct, List.cons_append] at hpv
        rw [show serArr [x] = serJson x from rfl, hct, List.cons_append]
        simp [parseElems, hcne, hpv]
      | x :: y :: ys =>
        obtain ⟨c, t, hct, -, hcne⟩ := serJson_cons x
        have hx1 : (serJson x).length = t.length + 1 := by rw [hct, List.length_cons]
        have hsplit : serArr (x :: y :: ys) = serJson x ++ ',' :: serArr (y :: ys) := rfl
        rw [hsplit, List.length_append, List.length_cons] at hb
        have hfx : 2 * (serJson x).length ≤ fuel := by omega
        have hfy : 2 * (serArr (y :: ys)).length + 1 ≤ fuel := by omega
        have hpv := ihV x (',' :: (serArr (y :: ys) ++ ']' :: rest)) hfx (delim_comma _)
        rw [hct, List.cons_append] at hpv
        have hpe := ihE (y :: ys) rest hfy
        rw [hsplit, List.append_assoc, List.cons_append, hct, List.cons_append]
        simp [parseElems, hcne, hpv, hpe]
    · intro ms rest hb
      match ms with
      | [] => simp [serObj, parseMembers]
      | [(k, v)] =>
        have hsplit : serObj [(k, v)] = '"' :: (escStr k ++ '"' :: ':' :: serJson v) :=
          rfl
        rw [hsplit, List.length_cons, List.length_append] at hb
        simp only [List.length_cons] at hb
        have hfv : 2 * (serJson v).length ≤ fuel := by omega
        have hpv := ihV v ('}' :: rest) hfv (delim_rbrace rest)
        rw [hsplit]
        simp only [List.cons_append, List.append_assoc]
        simp [parseMembers, parseStringBody_esc k, hpv]
      | (k, v) :: m :: ms2 =>
        have hsplit : serObj ((k, v) :: m :: ms2) =
            ('"' :: (escStr k ++ '"' :: ':' :: serJson v)) ++ ',' :: serObj (m :: ms2) :=
          rfl
        rw [hsplit, List.length_append, List.length_cons, List.length_cons,
          List.length_append] at hb
        simp only [List.length_cons] at hb
        have hfv : 2 * (serJson v).length ≤ fuel := by omega
        have hfm : 2 * (serObj (m :: ms2)).length + 1 ≤ fuel := by omega
        have hpv := ihV v (',' :: (serObj (m :: ms2) ++ '}' :: rest)) hfv (delim_comma _)
        have hpm := ihM (m :: ms2) rest hfm
        rw [hsplit]
        simp only [List.cons_append, List.append_assoc]
        simp [parseMembers, parseStringBody_esc k, hpv, hpm]

/-- Round trip at the document level: parsing a serialised value recovers it. -/
theorem parseDoc_ser (x : Json) : parseDoc (serJson x) = some x := by
  obtain ⟨c, t, hct, hws, -⟩ := serJson_cons x
  have hskip : skipWs (serJson x) = serJson x := by
    rw [skipWs, hct, List.dropWhile_cons, hws]
    simp
  rw [parseDoc]
  simp only [hskip]
  have hpv := (parse_ser_aux (2 * (serJson x).length + 2)).1 x [] (by omega) rfl
  rw [List.append_nil] at hpv
  rw [hpv]
  rfl

/-! ### Lemmas about the recovery strategies -/

theorem tameChar_facts {c : Char} (h : tameChar c = true) :
    c ≠ '{' ∧ c ≠ '}' ∧ c ≠ '`' := by
  rw [tameChar, Bool.not_eq_eq_eq_not, Bool.not_true, Bool.or_eq_false_iff,
    Bool.or_eq_false_iff] at h
  obtain ⟨⟨h1, h2⟩, h3⟩ := h
  exact ⟨of_decide_eq_false h1, of_decide_eq_false h2, of_decide_eq_false h3⟩

theorem parseValue_none_of_head {c : Char} (h1 : c ≠ 'n') (h2 : c ≠ 't')
    (h3 : c ≠ 'f') (h4 : c ≠ '"') (h5 : c ≠ '[') (h6 : c ≠ '{') (h7 : c ≠ '-')
    (h8 : isDigitCh c = false) (fuel : Nat) (R : List Char) :
    parseValue fuel (c :: R) = none := by
  cases fuel with
  | zero => rfl
  | succ f =>
    simp only [parseValue, h1, h2, h3, h4, h5, h6, if_false]
    rw [parseNumber.eq_def]
    simp only [h7, if_false, List.takeWhile_cons, h8]
    rfl

theorem parseDoc_none_of_head {c : Char} (hw : isWs c = false) (h1 : c ≠ 'n')
    (h2 : c ≠ 't') (h3 : c ≠ 'f') (h4 : c ≠ '"') (h5 : c ≠ '[') (h6 : c ≠ '{')
    (h7 : c ≠ '-') (h8 : isDigitCh c = false) (R : List Char) :
    parseDoc (c :: R) = none := by
  have hskip : skipWs (c :: R) = c :: R := by
    rw [skipWs, List.dropWhile_cons, hw]
    simp
  rw [parseDoc]
  simp only [hskip, parseValue_none_of_head h1 h2 h3 h4 h5 h6 h7 h8]

theorem afterFirst_fenceTag_none {l : List Char} (h : ∀ c ∈ l, c ≠ '`') :
    afterFirst fenceTag l = none := by
  induction l with
  | nil => rfl
  | cons c cs ih =>
    have hc : ('`' == c) = false := beq_eq_false_iff_ne.mpr (Ne.symm (h c (by simp)))
    have hp : fenceTag.isPrefixOf (c :: cs) = false := by
      show (('`' == c) && _) = false
      rw [hc, Bool.false_and]
    rw [afterFirst, hp]
    simp only [Bool.false_eq_true, if_false]
    exact ih (fun d hd => h d (by simp [hd]))

theorem extractFenced_none {l : List Char} (h : ∀ c ∈ l, c ≠ '`') :
    extractFenced l = none := by
  rw [extractFenced, afterFirst_fenceTag_none h]

theorem captureToLastQual_append (l : List Char) {m inner : List Char}
    (h : captureToLastQual m = some inner) :
    captureToLastQual (l ++ m) = some (l ++ inner) := by
  induction l with
  | nil => simpa using h
  | cons c cs ih =>
    rw [List.cons_append, captureToLastQual.eq_def]
    simp only [ih]
    rfl

theorem escStr_subset {c : Char} : ∀ {s : List Char}, c ∈ escStr s → c = '\\' ∨ c ∈ s := by
  intro s
  induction s with
  | nil => intro h; exact absurd h (by simp [escStr])
  | cons d ds ih =>
    intro h
    rw [show escStr (d :: ds) = escChar d ++ escStr ds from rfl] at h
    rcases List.mem_append.mp h with h | h
    · rw [escChar] at h
      split at h
      · simp only [List.mem_cons, List.not_mem_nil, or_false] at h
        rcases h with rfl | rfl
        · exact Or.inl rfl
        · exact Or.inr (by simp)
      · simp only [List.mem_cons, List.not_mem_nil, or_false] at h
        subst h
        exact Or.inr (by simp)
    · rcases ih h with h | h
      · exact Or.inl h
      · exact Or.inr (by simp [h])

theorem serInt_chars {c : Char} {i : Int} (h : c ∈ serInt i) :
    c = '-' ∨ isDigitCh c = true := by
  rw [serInt] at h
  split at h
  · rcases List.mem_cons.mp h with h | h
    · exact Or.inl h
    · exact Or.inr (serNat_all_digits c h)
  · exact Or.inr (serNat_all_digits c h)

theorem serInt_no_brace_tick {c : Char} {i : Int} (h : c ∈ serInt i) :
    c ≠ '{' ∧ c ≠ '}' ∧ c ≠ '`' := by
  rcases serInt_chars h with rfl | hd
  · exact ⟨by decide, by decide, by decide⟩
  · obtain ⟨-, -, -, -, -, -, -, h8, -, h10, h11⟩ := isDigitCh_facts hd
    exact ⟨h8, h10, h11⟩

mutual

theorem serJson_no_tick : ∀ x, tameJ x = true → ∀ c ∈ serJson x, c ≠ '`'
  | .null, _ => by intro c hc; fin_cases hc <;> decide
  | .bool true, _ => by intro c hc; fin_cases hc <;> decide
  | .bool false, _ => by intro c hc; fin_cases hc <;> decide
  | .num i, _ => by
    intro c hc
    exact (serInt_no_brace_tick hc).2.2
  | .str s, h => by
    intro c hc
    rw [show serJson (.str s) = '"' :: (escStr s ++ ['"']) from rfl] at hc
    rcases List.mem_cons.mp hc with rfl | hc
    · decide
    rcases List.mem_append.mp hc with hc | hc
    · rcases escStr_subset hc with rfl | hc
      · decide
      · have hall := List.all_eq_true.mp (by simpa [tameJ] using h) c hc
        exact (tameChar_facts (by simpa using hall)).2.2
    · simp only [List.mem_singleton] at hc
      subst hc; decide
  | .arr xs, h => by
    intro c hc
    rw [show serJson (.arr xs) = '[' :: (serArr xs ++ [']']) from rfl] at hc
    rcases List.mem_cons.mp hc with rfl | hc
    · decide
    rcases List.mem_append.mp hc with hc | hc
    · exact serArr_no_tick xs (by simpa [tameJ] using h) c hc
    · simp only [List.mem_singleton] at hc
      subst hc; decide
  | .obj ms, h => by
    intro c hc
    rw [show serJson (.obj ms) = '{' :: (serObj ms ++ ['}']) from rfl] at hc
    rcases List.mem_cons.mp hc with rfl | hc
    · decide
    rcases List.mem_append.mp hc with hc | hc
    · exact serObj_no_tick ms (by simpa [tameJ] using h) c hc
    · simp only [List.mem_singleton] at hc
      subst hc; decide

theorem serArr_no_tick : ∀ xs, tameA xs = true → ∀ c ∈ serArr xs, c ≠ '`'
  | [], _ => by intro c hc; exact absurd hc (by simp [serArr])
  | [x], h => by
    intro c hc
    rw [show serArr [x] = serJson x from rfl] at hc
    have hx : tameJ x = true := by
      have := h; rw [tameA, Bool.and_eq_true] at this; exact this.1
    exact serJson_no_tick x hx c hc
  | x :: y :: ys, h => by
    intro c hc
    rw [tameA, Bool.and_eq_true] at h
    rw [show serArr (x :: y :: ys) = serJson x ++ ',' :: serArr (y :: ys) from rfl] at hc
    rcases List.mem_append.mp hc with hc | hc
    · exact serJson_no_tick x h.1 c hc
    rcases List.mem_cons.mp hc with rfl | hc
    · decide
    · exact serArr_no_tick (y :: ys) h.2 c hc

theorem serObj_no_tick : ∀ ms, tameO ms = true → ∀ c ∈ serObj ms, c ≠ '`'
  | [], _ => by intro c hc; exact absurd hc (by simp [serObj])
  | [(k, v)], h => by
    intro c hc
    rw [tameO, Bool.and_eq_true, Bool.and_eq_true] at h
    obtain ⟨⟨hk, hv⟩, -⟩ := h
    rw [show serObj [(k, v)] = '"' :: (escStr k ++ '"' :: ':' :: serJson v) from rfl] at hc
    rcases List.mem_cons.mp hc with rfl | hc
    · decide
    rcases List.mem_append.mp hc with hc | hc
    · rcases escStr_subset hc with rfl | hc
      · decide
      · exact (tameChar_facts (List.all_eq_true.mp hk c hc)).2.2
    rcases List.mem_cons.mp hc with rfl | hc
    · decide
    rcases List.mem_cons.mp hc with rfl | hc
    · decide
    · exact serJson_no_tick v hv c hc
  | (k, v) :: m :: ms2, h => by
    intro c hc
    rw [tameO, Bool.and_eq_true, Bool.and_eq_true] at h
    obtain ⟨⟨hk, hv⟩, hms⟩ := h
    rw [show serObj ((k, v) :: m :: ms2) =
        ('"' :: (escStr k ++ '"' :: ':' :: serJson v)) ++ ',' :: serObj (m :: ms2)
      from rfl] at hc
    rcases List.mem_append.mp hc with hc | hc
    · rcases List.mem_cons.mp hc with rfl | hc
      · decide
      rcases List.mem_append.mp hc with hc | hc
      · rcases escStr_subset hc with rfl | hc
        · decide
        · exact (tameChar_facts (List.all_eq_true.mp hk c hc)).2.2
      rcases List.mem_cons.mp hc with rfl | hc
      · decide
      rcases List.mem_cons.mp hc with rfl | hc
      · decide
      · exact serJson_no_tick v hv c hc
    rcases List.mem_cons.mp hc with rfl | hc
    · decide
    · exact serObj_no_tick (m :: ms2) hms c hc

end

theorem braceWalk_cons_other {c : Char} (h1 : c ≠ '{') (h2 : c ≠ '}')
    (cs : List Char) (d : Nat) (acc : List Char) :
    braceWalk (c :: cs) d acc = braceWalk cs d (acc ++ [c]) := by
  rw [braceWalk.eq_def]
  simp only [h1, h2, if_false]

theorem braceWalk_pass {l : List Char} (h : ∀ c ∈ l, c ≠ '{' ∧ c ≠ '}') :
    ∀ rest (d : Nat) (acc : List Char),
      braceWalk (l ++ rest) d acc = braceWalk rest d (acc ++ l) := by
  induction l with
  | nil => intro rest d acc; simp
  | cons c cs ih =>
    intro rest d acc
    obtain ⟨h1, h2⟩ := h c (by simp)
    rw [List.cons_append, braceWalk_cons_other h1 h2,
      ih (fun e he => h e (by simp [he])) rest d (acc ++ [c])]
    simp

theorem braceWalk_open (cs : List Char) (d : Nat) (acc : List Char) :
    braceWalk ('{' :: cs) d acc = braceWalk cs (d + 1) (acc ++ ['{']) := by
  rw [braceWalk.eq_def]
  simp

theorem braceWalk_close_deep (cs : List Char) {d : Nat} (hd : 1 ≤ d)
    (acc : List Char) :
    braceWalk ('}' :: cs) (d + 1) acc = braceWalk cs d (acc ++ ['}']) := by
  rw [braceWalk.eq_def]
  have h1 : ('}' : Char) ≠ '{' := by decide
  have h2 : d + 1 ≠ 1 := by omega
  simp [h1, h2]

theorem braceWalk_close_one (cs : List Char) (acc : List Char) :
    braceWalk ('}' :: cs) 1 acc = some (acc ++ ['}']) := by
  rw [braceWalk.eq_def]
  have h1 : ('}' : Char) ≠ '{' := by decide
  simp [h1]

mutual

theorem braceWalk_serJson : ∀ x, tameJ x = true → ∀ d : Nat, 1 ≤ d →
    ∀ rest acc, braceWalk (serJson x ++ rest) d acc = braceWalk rest d (acc ++ serJson x)
  | .null, _ => by
    intro d _ rest acc
    exact braceWalk_pass (by decide) rest d acc
  | .bool true, _ => by
    intro d _ rest acc
    exact braceWalk_pass (by decide) rest d acc
  | .bool false, _ => by
    intro d _ rest acc
    exact braceWalk_pass (by decide) rest d acc
  | .num i, _ => by
    intro d _ rest acc
    exact braceWalk_pass
      (fun c hc => ⟨(serInt_no_brace_tick hc).1, (serInt_no_brace_tick hc).2.1⟩) rest d acc
  | .str s, h => by
    intro d _ rest acc
    refine braceWalk_pass (fun c hc => ?_) rest d acc
    rw [show serJson (.str s) = '"' :: (escStr s ++ ['"']) from rfl] at hc
    rcases List.mem_cons.mp hc with rfl | hc
    · exact ⟨by decide, by decide⟩
    rcases List.mem_append.mp hc with hc | hc
    · rcases escStr_subset hc with rfl | hc
      · exact ⟨by decide, by decide⟩
      · have hall := List.all_eq_true.mp (by simpa [tameJ] using h) c hc
        exact ⟨(tameChar_facts (by simpa using hall)).1,
          (tameChar_facts (by simpa using hall)).2.1⟩
    · simp only [List.mem_singleton] at hc
      subst hc; exact ⟨by decide, by decide⟩
  | .arr xs, h => by
    intro d hd rest acc
    rw [show serJson (.arr xs) = '[' :: (serArr xs ++ [']']) from rfl]
    simp only [List.cons_append, List.append_assoc, List.singleton_append]
    rw [braceWalk_cons_other (by decide) (by decide),
      braceWalk_serArr xs (by simpa [tameJ] using h) d hd,
      braceWalk_cons_other (by decide) (by decide)]
    simp
  | .obj ms, h => by
    intro d hd rest acc
    rw [show serJson (.obj ms) = '{' :: (serObj ms ++ ['}']) from rfl]
    simp only [List.cons_append, List.append_assoc, List.singleton_append]
    rw [braceWalk_open, braceWalk_serObj ms (by simpa [tameJ] using h) (d + 1) (by omega),
      braceWalk_close_deep _ hd]
    simp

theorem braceWalk_serArr : ∀ xs, tameA xs = true → ∀ d : Nat, 1 ≤ d →
    ∀ rest acc, braceWalk (serArr xs ++ rest) d acc = braceWalk rest d (acc ++ serArr xs)
  | [], _ => by
    intro d _ rest acc
    simp [serArr]
  | [x], h => by
    intro d hd rest acc
    rw [tameA, Bool.and_eq_true] at h
    exact braceWalk_serJson x h.1 d hd rest acc
  | x :: y :: ys, h => by
    intro d hd rest acc
    rw [tameA, Bool.and_eq_true] at h
    rw [show serArr (x :: y :: ys) = serJson x ++ ',' :: serArr (y :: ys) from rfl]
    simp only [List.append_assoc, List.cons_append]
    rw [braceWalk_serJson x h.1 d hd, braceWalk_cons_other (by decide) (by decide),
      braceWalk_serArr (y :: ys) h.2 d hd]
    simp

theorem braceWalk_serObj : ∀ ms, tameO ms = true → ∀ d : Nat, 1 ≤ d →
    ∀ rest acc, braceWalk (serObj ms ++ rest) d acc = braceWalk rest d (acc ++ serObj ms)
  | [], _ => by
    intro d _ rest acc
    simp [serObj]
  | [(k, v)], h => by
    intro d hd rest acc
    rw [tameO, Bool.and_eq_true, Bool.and_eq_true] at h
    obtain ⟨⟨hk, hv⟩, -⟩ := h
    have hkpass : ∀ c ∈ '"' :: (escStr k ++ ['"', ':']), c ≠ '{' ∧ c ≠ '}' := by
      intro c hc
      rcases List.mem_cons.mp hc with rfl | hc
      · exact ⟨by decide, by decide⟩
      rcases List.mem_append.mp hc with hc | hc
      · rcases escStr_subset hc with rfl | hc
        · exact ⟨by decide, by decide⟩
        · exact ⟨(tameChar_facts (List.all_eq_true.mp hk c hc)).1,
            (tameChar_facts (List.all_eq_true.mp hk c hc)).2.1⟩
      · rcases List.mem_cons.mp hc with rfl | hc
        · exact ⟨by decide, by decide⟩
        · simp only [List.mem_singleton] at hc
          subst hc; exact ⟨by decide, by decide⟩
    have hform : serObj [(k, v)] ++ rest =
        ('"' :: (escStr k ++ ['"', ':'])) ++ (serJson v ++ rest) := by
      rw [show serObj [(k, v)] = '"' :: (escStr k ++ '"' :: ':' :: serJson v) from rfl]
      simp
    rw [hform, braceWalk_pass hkpass, braceWalk_serJson v hv d hd]
    rw [show serObj [(k, v)] = '"' :: (escStr k ++ '"' :: ':' :: serJson v) from rfl]
    simp
  | (k, v) :: m :: ms2, h => by
    intro d hd rest acc
    rw [tameO, Bool.and_eq_true, Bool.and_eq_true] at h
    obtain ⟨⟨hk, hv⟩, hms⟩ := h
    have hkpass : ∀ c ∈ '"' :: (escStr k ++ ['"', ':']), c ≠ '{' ∧ c ≠ '}' := by
      intro c hc
      rcases List.mem_cons.mp hc with rfl | hc
      · exact ⟨by decide, by decide⟩
      rcases List.mem_append.mp hc with hc | hc
      · rcases escStr_subset hc with rfl | hc
        · exact ⟨by decide, by decide⟩
        · exact ⟨(tameChar_facts (List.all_eq_true.mp hk c hc)).1,
            (tameChar_facts (List.all_eq_true.mp hk c hc)).2.1⟩
      · rcases List.mem_cons.mp hc with rfl | hc
        · exact ⟨by decide, by decide⟩
        · simp only [List.mem_singleton] at hc
          subst hc; exact ⟨by decide, by decide⟩
    have hform : serObj ((k, v) :: m :: ms2) ++ rest =
        ('"' :: (escStr k ++ ['"', ':'])) ++
          (serJson v ++ (',' :: (serObj (m :: ms2) ++ rest))) := by
      rw [show serObj ((k, v) :: m :: ms2) =
          ('"' :: (escStr k ++ '"' :: ':' :: serJson v)) ++ ',' :: serObj (m :: ms2)
        from rfl]
      simp
    rw [hform, braceWalk_pass hkpass, braceWalk_serJson v hv d hd,
      braceWalk_cons_other (by decide) (by decide),
      braceWalk_serObj (m :: ms2) hms d hd]
    rw [show serObj ((k, v) :: m :: ms2) =
        ('"' :: (escStr k ++ '"' :: ':' :: serJson v)) ++ ',' :: serObj (m :: ms2)
      from rfl]
    simp

end

/-- Dropping up to the first opening brace skips brace-free prose. -/
theorem dropWhile_no_brace {l : List Char} (h : ∀ c ∈ l, c ≠ '{') (r : List Char) :
    (l ++ '{' :: r).dropWhile (fun c => !(c = '{')) = '{' :: r := by
  induction l with
  | nil =>
    rw [List.nil_append, List.dropWhile_cons]
    simp
  | cons c cs ih =>
    have hc : c ≠ '{' := h c (by simp)
    rw [List.cons_append, List.dropWhile_cons]
    have hcond : (!decide (c = '{')) = true := by simp [hc]
    simp only [hcond, if_true]
    exact ih (fun e he => h e (by simp [he]))

/-- The balanced-brace scan recovers exactly the serialised object from an
input made of brace-free prose, the object, and an arbitrary tail. -/
theorem balancedExtract_prose {p1 p2 : List Char}
    (hp : ∀ c ∈ p1, c ≠ '{') {ms : List (List Char × Json)}
    (hm : tameO ms = true) :
    balancedExtract (p1 ++ serJson (.obj ms) ++ p2) = some (serJson (.obj ms)) := by
  have hform : p1 ++ serJson (.obj ms) ++ p2 =
      p1 ++ '{' :: ((serObj ms ++ ['}']) ++ p2) := by
    rw [show serJson (.obj ms) = '{' :: (serObj ms ++ ['}']) from rfl]
    simp
  rw [hform, balancedExtract, dropWhile_no_brace hp _]
  show braceWalk ('{' :: ((serObj ms ++ ['}']) ++ p2)) 0 [] = some (serJson (.obj ms))
  rw [braceWalk_open]
  have hassoc : (serObj ms ++ ['}']) ++ p2 = serObj ms ++ ('}' :: p2) := by simp
  rw [hassoc, braceWalk_serObj ms hm 1 (by omega), braceWalk_close_one]
  rw [show serJson (.obj ms) = '{' :: (serObj ms ++ ['}']) from rfl]
  simp

theorem proseCh_facts {c : Char} (h : proseCh c = true) :
    c ≠ '"' ∧ c ≠ '[' ∧ c ≠ '{' ∧ c ≠ '-' ∧ isDigitCh c = false ∧
      c ≠ '}' ∧ c ≠ '`' := by
  have hb := of_decide_eq_true h
  refine ⟨?_, ?_, ?_, ?_, ?_, ?_, ?_⟩
  · exact fun h2 => absurd hb (by rw [h2]; decide)
  · exact fun h2 => absurd hb (by rw [h2]; decide)
  · exact fun h2 => absurd hb (by rw [h2]; decide)
  · exact fun h2 => absurd hb (by rw [h2]; decide)
  · rw [isDigitCh, decide_eq_false_iff_not]
    intro hd
    omega
  · exact fun h2 => absurd hb (by rw [h2]; decide)
  · exact fun h2 => absurd hb (by rw [h2]; decide)

theorem afterFirst_fenceOpen (X : List Char) :
    afterFirst fenceTag (fenceOpen ++ X) = some ('\n' :: X) := rfl

/-- The greedy fenced-block capture recovers exactly the serialised object
when the fences are well formed. -/
theorem extractFenced_fence (ms : List (List Char × Json)) :
    extractFenced (fenceOpen ++ (serJson (.obj ms) ++ fenceClose)) =
      some (serJson (.obj ms)) := by
  have hcap : captureToLastQual ((serObj ms ++ ['}']) ++ fenceClose) =
      some (serObj ms ++ ['}']) := by
    have hbase : captureToLastQual ('}' :: fenceClose) = some ['}'] := rfl
    have happ := captureToLastQual_append (serObj ms) hbase
    have hassoc : (serObj ms ++ ['}']) ++ fenceClose = serObj ms ++ '}' :: fenceClose := by
      simp
    rw [hassoc, happ]
  rw [extractFenced, afterFirst_fenceOpen]
  show (match captureToLastQual ((serObj ms ++ ['}']) ++ fenceClose) with
    | some inner => some ('{' :: inner)
    | none => none) = some (serJson (.obj ms))
  rw [hcap]
  rw [show serJson (.obj ms) = '{' :: (serObj ms ++ ['}']) from rfl]

/-! ## Claim theorems for the parser -/

/-- C7 (amended).  Parse round-trip: parsing the serialisation of any
structured value recovers it; the fenced-block recovery recovers any
serialised object wrapped in a well-formed ```json fence; the prose recovery
recovers a serialised object surrounded by prose made of letters, spaces and
periods (the leading prose starting with a letter other than a token
keyword's first letter, and the object's strings free of braces and
backticks, since a brace inside prose or a string literal derails the
balanced-brace scan); and the input "not json at all" yields the in-band
parse-error object. -/
theorem claim_C7_amended :
    (∀ x : Json, parse_json_response (serJson x) = x) ∧
    (∀ ms : List (List Char × Json),
      parse_json_response (fenceOpen ++ serJson (.obj ms) ++ fenceClose) = .obj ms) ∧
    (∀ (ms : List (List Char × Json)) (c0 : Char) (p1 p2 : List Char),
      tameO ms = true → proseCh c0 = true → isWs c0 = false →
      c0 ≠ 'n' → c0 ≠ 't' → c0 ≠ 'f' →
      (∀ c ∈ p1, proseCh c = true) → (∀ c ∈ p2, proseCh c = true) →
      parse_json_response ((c0 :: p1) ++ serJson (.obj ms) ++ p2) = .obj ms) ∧
    parse_json_response "not json at all".toList = parseErrorJson := by
  refine ⟨?_, ?_, ?_, rfl⟩
  · intro x
    rw [parse_json_response, parseDoc_ser x]
  · intro ms
    have hassoc : fenceOpen ++ serJson (.obj ms) ++ fenceClose =
        fenceOpen ++ (serJson (.obj ms) ++ fenceClose) := by simp
    have hdirect : parseDoc (fenceOpen ++ (serJson (.obj ms) ++ fenceClose)) = none :=
      parseDoc_none_of_head (by decide) (by decide) (by decide) (by decide)
        (by decide) (by decide) (by decide) (by decide) (by decide) _
    rw [hassoc, parse_json_response]
    simp only [hdirect, extractFenced_fence, parseDoc_ser]
  · intro ms c0 p1 p2 hm hpc hw hn ht hf hp1 hp2
    obtain ⟨f1, f2, f3, f4, f5, f6, f7⟩ := proseCh_facts hpc
    have hdirect : parseDoc ((c0 :: p1) ++ serJson (.obj ms) ++ p2) = none := by
      rw [List.append_assoc]
      exact parseDoc_none_of_head hw hn ht hf f1 f2 f3 f4 f5 _
    have hnotick : ∀ c ∈ (c0 :: p1) ++ serJson (.obj ms) ++ p2, c ≠ '`' := by
      intro c hc
      rcases List.mem_append.mp hc with hc | hc
      · rcases List.mem_append.mp hc with hc | hc
        · rcases List.mem_cons.mp hc with rfl | hc
          · exact f7
          · exact (proseCh_facts (hp1 c hc)).2.2.2.2.2.2
        · exact serJson_no_tick (.obj ms) (by simpa [tameJ] using hm) c hc
      · exact (proseCh_facts (hp2 c hc)).2.2.2.2.2.2
    have hfen := extractFenced_none hnotick
    have hbal : balancedExtract ((c0 :: p1) ++ serJson (.obj ms) ++ p2) =
        some (serJson (.obj ms)) := by
      refine balancedExtract_prose (fun c hc => ?_) hm
      rcases List.mem_cons.mp hc with rfl | hc
      · exact f3
      · exact (proseCh_facts (hp1 c hc)).2.2.1
    rw [parse_json_response]
    simp only [hdirect, hfen, hbal, parseDoc_ser]

/-- C7 counterexample.  The claim as stated fails: with arbitrary prose in
front, a serialised object whose string values contain a closing brace is
not recovered — the balanced-brace scan cuts the candidate at the brace
inside the string literal and parsing it fails, so the parser returns the
in-band error object instead of the value. -/
theorem claim_C7_counterexample :
    parse_json_response ("see ".toList ++ serJson (.obj [(['a'], .str ['}'])])) =
      parseErrorJson ∧
    parseErrorJson ≠ Json.obj [(['a'], .str ['}'])] := by
  constructor
  · rfl
  · intro h
    exact absurd (congrArg firstKeyLen h) (by decide)

/-- C7 witness.  The amended prose-recovery clause applied at a concrete
object with concrete prose on both sides. -/
theorem claim_C7_witness :
    parse_json_response (('s' :: "ee ".toList) ++
      serJson (.obj [(['a'], .num 1)]) ++ " ok".toList) = .obj [(['a'], .num 1)] :=
  claim_C7_amended.2.2.1 [(['a'], .num 1)] 's' "ee ".toList " ok".toList
    (by decide) (by decide) (by decide) (by decide) (by decide) (by decide)
    (by decide) (by decide)

/-- C8 (confirmed).  The parser is total at its boundary: for every input it
either returns a structured value recovered by one of the three strategies —
direct parse, fenced-block extraction, balanced-brace scan, tried in that
order — or returns the in-band parse-error value; no other outcome exists,
so no exception crosses the boundary. -/
theorem claim_C8_parser_total (cs : List Char) :
    (∃ v, parse_json_response cs = v ∧
      (parseDoc cs = some v ∨
        (parseDoc cs = none ∧
          ∃ b, extractFenced cs = some b ∧ parseDoc b = some v) ∨
        (parseDoc cs = none ∧ extractFenced cs = none ∧
          ∃ b, balancedExtract cs = some b ∧ parseDoc b = some v))) ∨
    parse_json_response cs = parseErrorJson := by
  cases hd : parseDoc cs with
  | some v =>
    exact Or.inl ⟨v, by simp only [parse_json_response, hd], Or.inl rfl⟩
  | none =>
    cases hf : extractFenced cs with
    | some b =>
      cases hb : parseDoc b with
      | some v =>
        exact Or.inl ⟨v, by simp only [parse_json_response, hd, hf, hb],
          Or.inr (Or.inl ⟨rfl, b, rfl, hb⟩)⟩
      | none =>
        exact Or.inr (by simp only [parse_json_response, hd, hf, hb])
    | none =>
      cases hbal : balancedExtract cs with
      | some cand =>
        cases hc : parseDoc cand with
        | some v =>
          exact Or.inl ⟨v, by simp only [parse_json_response, hd, hf, hbal, hc],
            Or.inr (Or.inr ⟨rfl, rfl, cand, rfl, hc⟩)⟩
        | none =>
          exact Or.inr (by simp only [parse_json_response, hd, hf, hbal, hc])
      | none =>
        exact Or.inr (by simp only [parse_json_response, hd, hf, hbal])

/-! ### Store lemmas -/

theorem pushHot_length (h : List HotEntry) (e : HotEntry) :
    (pushHot h e).length ≤ 3 := by
  rw [pushHot, List.length_drop, List.length_append, List.length_singleton]
  omega

theorem pushHot_getLast (h : List HotEntry) (e : HotEntry) :
    (pushHot h e).getLast? = some e := by
  rw [pushHot, List.drop_append_eq_append_drop]
  have hk : (h ++ [e]).length - 3 - h.length = 0 := by
    rw [List.length_append, List.length_singleton]
    omega
  rw [hk, List.drop_zero, List.getLast?_append]
  rfl

theorem updateFromEnd_none_of {uid q resp : String} {rating : Int}
    {fb improved : Option String} :
    ∀ {l : List ConvRecord}, (∀ r ∈ l, ¬ feedbackMatch uid q resp r) →
      updateFromEnd uid q resp rating fb improved l = none := by
  intro l
  induction l with
  | nil => intro _; rfl
  | cons r rs ih =>
    intro h
    rw [updateFromEnd.eq_def]
    simp only [ih (fun r2 h2 => h r2 (by simp [h2]))]
    rw [if_neg (h r (by simp))]

theorem forall_not_of_updateFromEnd_none {uid q resp : String} {rating : Int}
    {fb improved : Option String} :
    ∀ {l : List ConvRecord},
      updateFromEnd uid q resp rating fb improved l = none →
      ∀ r ∈ l, ¬ feedbackMatch uid q resp r := by
  intro l
  induction l with
  | nil => intro _ r h; exact absurd h (by simp)
  | cons r rs ih =>
    intro h r2 h2
    rw [updateFromEnd.eq_def] at h
    cases hrec : updateFromEnd uid q resp rating fb improved rs with
    | some rs2 => simp [hrec] at h
    | none =>
      simp only [hrec] at h
      by_cases hm : feedbackMatch uid q resp r
      · rw [if_pos hm] at h; exact absurd h (by simp)
      · rcases List.mem_cons.mp h2 with rfl | h2
        · exact hm
        · exact ih hrec r2 h2

theorem updateFromEnd_spec {uid q resp : String} {rating : Int}
    {fb improved : Option String} :
    ∀ {l l2 : List ConvRecord},
      updateFromEnd uid q resp rating fb improved l = some l2 →
      ∃ pre r post, l = pre ++ r :: post ∧ feedbackMatch uid q resp r ∧
        (∀ r2 ∈ post, ¬ feedbackMatch uid q resp r2) ∧
        l2 = pre ++ rateRecord rating fb improved r :: post := by
  intro l
  induction l with
  | nil => intro l2 h; exact absurd h (by rw [show updateFromEnd uid q resp rating fb improved [] = none from rfl]; simp)
  | cons r rs ih =>
    intro l2 h
    rw [updateFromEnd.eq_def] at h
    cases hrec : updateFromEnd uid q resp rating fb improved rs with
    | some rs2 =>
      simp only [hrec] at h
      obtain ⟨pre, r3, post, hsplit, hm, hpost, hres⟩ := ih hrec
      refine ⟨r :: pre, r3, post, by rw [hsplit, List.cons_append], hm, hpost, ?_⟩
      rw [← Option.some_inj.mp h, hres, List.cons_append]
    | none =>
      simp only [hrec] at h
      by_cases hm : feedbackMatch uid q resp r
      · rw [if_pos hm] at h
        exact ⟨[], r, rs, by simp, hm, forall_not_of_updateFromEnd_none hrec,
          by simpa using (Option.some_inj.mp h).symm⟩
      · rw [if_neg hm] at h
        exact absurd h (by simp)

theorem updateFromEnd_isSome_of_mem {uid q resp : String} {rating : Int}
    {fb improved : Option String} {l : List ConvRecord}
    (hex : ∃ r ∈ l, feedbackMatch uid q resp r) :
    ∃ l2, updateFromEnd uid q resp rating fb improved l = some l2 := by
  cases h : updateFromEnd uid q resp rating fb improved l with
  | some l2 => exact ⟨l2, rfl⟩
  | none =>
    obtain ⟨r, hr, hm⟩ := hex
    exact absurd hm (forall_not_of_updateFromEnd_none h r hr)

/-! ## Claim theorems for the store and the feedback workflow -/

/-- C1 counterexample.  After Append("q","a") and a first SubmitFeedback that
rates the record, a second identical SubmitFeedback does not leave the
archive unchanged: the fallback of `update_conversation_with_feedback`
appends a new, already rated record, so the archive grows from one record to
two — the claim's "no-op that reports not found, never creates a record" is
false on the code. -/
theorem claim_C1_counterexample :
    ((process_feedback_and_improve "u1" "q" "a" 2 (some "bad") "gen" "id3" "t3" "c3"
      (process_feedback_and_improve "u1" "q" "a" 2 (some "bad") "gen" "id2" "t2" "c2"
        (appendConversation "u1" "q" "a" "id1" "t1"
          ⟨[], [], []⟩)).2).2.conversations.length = 2) ∧
    ((process_feedback_and_improve "u1" "q" "a" 2 (some "bad") "gen" "id2" "t2" "c2"
      (appendConversation "u1" "q" "a" "id1" "t1"
        ⟨[], [], []⟩)).2.conversations.length = 1) := by
  constructor
  · rfl
  · rfl

/-- C1 (amended).  When no unrated exact match exists,
`update_conversation_with_feedback` is not a not-found no-op: it falls back
to `add_conversation_to_chat_data` and appends exactly one new record that is
already rated; no not-found outcome is reported. -/
theorem claim_C1_amended (uid q resp : String) (rating : Int)
    (fb improved : Option String) (freshId ts : String) (convs : List ConvRecord)
    (h : ∀ r ∈ convs, ¬ feedbackMatch uid q resp r) :
    update_conversation_with_feedback uid q resp rating fb improved freshId ts convs =
      convs ++ [⟨freshId, uid, ts, q, resp, some rating, fb, improved⟩] := by
  rw [update_conversation_with_feedback, updateFromEnd_none_of h]
  rfl

/-- C1 witness.  The fallback applied to an empty archive. -/
theorem claim_C1_witness :
    update_conversation_with_feedback "u1" "q" "a" 2 (some "bad") none "id" "t" [] =
      [⟨"id", "u1", "t", "q", "a", some 2, some "bad", none⟩] :=
  claim_C1_amended "u1" "q" "a" 2 (some "bad") none "id" "t" []
    (by intro r hr; exact absurd hr (by simp))

/-- C2 counterexample.  The claim requires that rating 4 never produces an
improved answer, but the code's gate is `rating < 5 and feedback_text`, so
SubmitFeedback with rating 4 and non-empty feedback does generate one. -/
theorem claim_C2_counterexample :
    (process_feedback_and_improve "u1" "q" "a" 4 (some "too vague") "better"
      "id" "t" "c" ⟨[], [], []⟩).1 = some "better" ∧
    some "better" ≠ (none : Option String) := by
  constructor
  · rfl
  · simp

/-- C2 (amended).  An improved answer is generated precisely when the rating
is below five (not below four) and the feedback text is truthy; in
particular rating 5 never produces one and any rating at most 4 with
non-empty feedback always does. -/
theorem claim_C2_amended (uid q orig : String) (rating : Int) (fb : Option String)
    (gen freshId ts cid : String) (st : ChatState) :
    ((process_feedback_and_improve uid q orig rating fb gen freshId ts cid st).1 ≠ none
      ↔ (rating < 5 ∧ strTruthy fb = true)) ∧
    (rating = 5 →
      (process_feedback_and_improve uid q orig rating fb gen freshId ts cid st).1 = none) ∧
    (rating ≤ 4 → strTruthy fb = true →
      (process_feedback_and_improve uid q orig rating fb gen freshId ts cid st).1 =
        some (sanitize gen)) := by
  by_cases h : rating < 5 ∧ strTruthy fb = true
  · refine ⟨?_, ?_, ?_⟩
    · simp [process_feedback_and_improve, h]
    · intro h5; omega
    · intro _ _; simp [process_feedback_and_improve, h]
  · refine ⟨?_, ?_, ?_⟩
    · simp [process_feedback_and_improve, h]
    · intro _; simp [process_feedback_and_improve, h]
    · intro h4 ht
      exact absurd ⟨by omega, ht⟩ h

/-- C2 witness.  Rating 2 with non-empty feedback attempts improvement. -/
theorem claim_C2_witness :
    (process_feedback_and_improve "u" "q" "a" 2 (some "x") "gen" "i" "t" "c"
      ⟨[], [], []⟩).1 = some (sanitize "gen") :=
  (claim_C2_amended "u" "q" "a" 2 (some "x") "gen" "i" "t" "c" ⟨[], [], []⟩).2.2
    (by decide) (by decide)

/-- C3 counterexample.  Two Appends of the same (user, question, answer)
leave two unrated exact matches in the archive at once, refuting the
at-most-one-unrated-match invariant. -/
theorem claim_C3_counterexample :
    ((appendConversation "u1" "q" "a" "id2" "t2"
      (appendConversation "u1" "q" "a" "id1" "t1"
        ⟨[], [], []⟩)).conversations.countP
          (fun r => decide (feedbackMatch "u1" "q" "a" r))) = 2 := by
  rfl

/-- C3 (amended).  When an unrated exact match exists, the feedback update
rates the most recent such match in place — the JSON archive keeps its
length and the decomposition around the matched record — but repeated
Appends can stack several unrated matches, and every feedback processing
inserts a fresh document into the similarity index instead of updating it in
place. -/
theorem claim_C3_amended (uid q orig : String) (rating : Int) (fb : Option String)
    (gen freshId ts cid : String) (st : ChatState)
    (hex : ∃ r ∈ st.conversations, feedbackMatch uid q orig r) :
    (∃ pre r post, st.conversations = pre ++ r :: post ∧
      feedbackMatch uid q orig r ∧
      (∀ r2 ∈ post, ¬ feedbackMatch uid q orig r2) ∧
      (process_feedback_and_improve uid q orig rating fb gen freshId ts cid
        st).2.conversations =
        pre ++ rateRecord rating fb
          ((process_feedback_and_improve uid q orig rating fb gen freshId ts cid st).1)
          r :: post) ∧
    (process_feedback_and_improve uid q orig rating fb gen freshId ts cid
      st).2.conversations.length = st.conversations.length ∧
    (process_feedback_and_improve uid q orig rating fb gen freshId ts cid st).2.chroma =
      st.chroma ++ [⟨cid, uid, ts, some rating, q, orig, fb,
        (process_feedback_and_improve uid q orig rating fb gen freshId ts cid st).1⟩] := by
  obtain ⟨l2, hl2⟩ := @updateFromEnd_isSome_of_mem uid q orig rating fb
    ((process_feedback_and_improve uid q orig rating fb gen freshId ts cid st).1)
    st.conversations hex
  obtain ⟨pre, r, post, hsplit, hm, hpost, hres⟩ := updateFromEnd_spec hl2
  have himp : (process_feedback_and_improve uid q orig rating fb gen freshId ts cid
      st).1 = (if rating < 5 ∧ strTruthy fb = true then some (sanitize gen) else none) :=
    rfl
  have hl3 := hl2
  rw [himp] at hl3
  have hconv : (process_feedback_and_improve uid q orig rating fb gen freshId ts cid
      st).2.conversations = l2 := by
    simp only [process_feedback_and_improve, update_conversation_with_feedback]
    rw [hl3]
  refine ⟨⟨pre, r, post, hsplit, hm, hpost, by rw [hconv, hres]⟩, ?_, ?_⟩
  · rw [hconv, hres, hsplit]
    simp
  · simp only [process_feedback_and_improve, store_conversation_in_chromadb]

/-- C3 witness.  A single unrated record is rated in place while the
similarity index gains a fresh document. -/
theorem claim_C3_witness :
    ((process_feedback_and_improve "u" "q" "a" 2 (some "f") "gen" "i" "t" "c"
      ⟨[], [⟨"id0", "u", "t0", "q", "a", none, none, none⟩], []⟩).2.conversations.length =
      1) ∧
    ((process_feedback_and_improve "u" "q" "a" 2 (some "f") "gen" "i" "t" "c"
      ⟨[], [⟨"id0", "u", "t0", "q", "a", none, none, none⟩], []⟩).2.chroma.length = 1) := by
  have h := claim_C3_amended "u" "q" "a" 2 (some "f") "gen" "i" "t" "c"
    ⟨[], [⟨"id0", "u", "t0", "q", "a", none, none, none⟩], []⟩
    ⟨⟨"id0", "u", "t0", "q", "a", none, none, none⟩, by simp, by decide⟩
  refine ⟨?_, ?_⟩
  · rw [h.2.1]
    rfl
  · rw [h.2.2]
    rfl

/-- C9 (confirmed).  FIFO bound of the hot tier: an Append always leaves at
most three hot entries with the just-appended conversation last, never
touches the similarity index, and only ever appends to the JSON archive;
these properties are preserved along any sequence of Appends. -/
theorem claim_C9_fifo (uid : String) :
    (∀ (q a freshId ts : String) (st : ChatState),
      (appendConversation uid q a freshId ts st).history.length ≤ 3 ∧
      (appendConversation uid q a freshId ts st).history.getLast? = some ⟨q, a, ts⟩ ∧
      (appendConversation uid q a freshId ts st).chroma = st.chroma ∧
      st.conversations <+: (appendConversation uid q a freshId ts st).conversations) ∧
    (∀ (st : ChatState) ops, st.history.length ≤ 3 →
      (foldAppend uid st ops).history.length ≤ 3) ∧
    (∀ (st : ChatState) ops,
      st.conversations <+: (foldAppend uid st ops).conversations ∧
      (foldAppend uid st ops).chroma = st.chroma) := by
  have hone : ∀ (q a freshId ts : String) (st : ChatState),
      (appendConversation uid q a freshId ts st).history.length ≤ 3 ∧
      (appendConversation uid q a freshId ts st).history.getLast? = some ⟨q, a, ts⟩ ∧
      (appendConversation uid q a freshId ts st).chroma = st.chroma ∧
      st.conversations <+: (appendConversation uid q a freshId ts st).conversations := by
    intro q a freshId ts st
    refine ⟨pushHot_length _ _, pushHot_getLast _ _, rfl, ?_⟩
    exact List.prefix_append _ _
  refine ⟨hone, ?_, ?_⟩
  · intro st ops
    induction ops generalizing st with
    | nil => intro h; exact h
    | cons op rest ih =>
      intro _
      exact ih _ (hone op.1 op.2.1 op.2.2.1 op.2.2.2 st).1
  · intro st ops
    induction ops generalizing st with
    | nil => exact ⟨List.prefix_refl _, rfl⟩
    | cons op rest ih =>
      rw [show foldAppend uid st (op :: rest) =
        foldAppend uid (appendConversation uid op.1 op.2.1 op.2.2.1 op.2.2.2 st) rest
        from rfl]
      obtain ⟨hp, hc⟩ := ih (appendConversation uid op.1 op.2.1 op.2.2.1 op.2.2.2 st)
      exact ⟨List.IsPrefix.trans
        (hone op.1 op.2.1 op.2.2.1 op.2.2.2 st).2.2.2 hp,
        by rw [hc, (hone op.1 op.2.1 op.2.2.1 op.2.2.2 st).2.2.1]⟩

/-- C9 witness.  Four Appends for one user leave exactly three hot entries,
headed by the fourth conversation, and four archived records. -/
theorem claim_C9_witness :
    (foldAppend "u" ⟨[], [], []⟩
      [("q1", "a1", "i1", "t1"), ("q2", "a2", "i2", "t2"),
        ("q3", "a3", "i3", "t3"), ("q4", "a4", "i4", "t4")]).history.length ≤ 3 :=
  (claim_C9_fifo "u").2.1 ⟨[], [], []⟩
    [("q1", "a1", "i1", "t1"), ("q2", "a2", "i2", "t2"),
      ("q3", "a3", "i3", "t3"), ("q4", "a4", "i4", "t4")] (by decide)

/-- C10 (confirmed).  Frame property of SubmitFeedback on the hot tier: all
entries but the most recent are untouched, the most recent entry keeps its
question and timestamp, its answer is replaced exactly when its question
matches the submitted one and a truthy improved answer was produced, and
when no improved answer is produced (or the question differs) the hot tier
is unchanged entirely. -/
theorem claim_C10_hot_frame (uid q orig : String) (rating : Int)
    (fb : Option String) (gen freshId ts cid : String) (st : ChatState) :
    ((process_feedback_and_improve uid q orig rating fb gen freshId ts cid
      st).2.history.dropLast = st.history.dropLast) ∧
    ((process_feedback_and_improve uid q orig rating fb gen freshId ts cid
      st).2.history.length = st.history.length) ∧
    (∀ e, st.history.getLast? = some e →
      ∃ e2, (process_feedback_and_improve uid q orig rating fb gen freshId ts cid
        st).2.history.getLast? = some e2 ∧
        e2.question = e.question ∧ e2.timestamp = e.timestamp) ∧
    (∀ e s, st.history.getLast? = some e → e.question = q →
      (process_feedback_and_improve uid q orig rating fb gen freshId ts cid st).1 =
        some s → s ≠ "" →
      (process_feedback_and_improve uid q orig rating fb gen freshId ts cid
        st).2.history = st.history.dropLast ++ [{ e with answer := s }]) ∧
    ((process_feedback_and_improve uid q orig rating fb gen freshId ts cid st).1 =
        none →
      (process_feedback_and_improve uid q orig rating fb gen freshId ts cid
        st).2.history = st.history) ∧
    (∀ e, st.history.getLast? = some e → e.question ≠ q →
      (process_feedback_and_improve uid q orig rating fb gen freshId ts cid
        st).2.history = st.history) := by
  have hhist : (process_feedback_and_improve uid q orig rating fb gen freshId ts cid
      st).2.history = updateLastAnswer st.history q
        (process_feedback_and_improve uid q orig rating fb gen freshId ts cid st).1 :=
    rfl
  have hcases : updateLastAnswer st.history q
        (process_feedback_and_improve uid q orig rating fb gen freshId ts cid st).1 =
          st.history ∨
      (∃ e s, st.history.getLast? = some e ∧ e.question = q ∧
        (process_feedback_and_improve uid q orig rating fb gen freshId ts cid st).1 =
          some s ∧ s ≠ "" ∧
        updateLastAnswer st.history q
          (process_feedback_and_improve uid q orig rating fb gen freshId ts cid st).1 =
          st.history.dropLast ++ [{ e with answer := s }]) := by
    cases hl : st.history.getLast? with
    | none => exact Or.inl (by simp only [updateLastAnswer, hl])
    | some e =>
      by_cases hq : e.question = q
      · cases himp : (process_feedback_and_improve uid q orig rating fb gen freshId
            ts cid st).1 with
        | none =>
          refine Or.inl ?_
          simp only [updateLastAnswer, hl, himp]
          rw [if_pos hq]
        | some s =>
          by_cases hs : s = ""
          · refine Or.inl ?_
            simp only [updateLastAnswer, hl, himp]
            rw [if_pos hq, if_pos hs]
          · refine Or.inr ⟨e, s, rfl, hq, rfl, hs, ?_⟩
            simp only [updateLastAnswer, hl, himp]
            rw [if_pos hq, if_neg hs]
      · refine Or.inl ?_
        simp only [updateLastAnswer, hl]
        rw [if_neg hq]
  have hlast_ne : ∀ e, st.history.getLast? = some e → st.history ≠ [] := by
    intro e he h
    rw [h] at he
    exact absurd he (by simp)
  refine ⟨?_, ?_, ?_, ?_, ?_, ?_⟩
  · rw [hhist]
    rcases hcases with h | ⟨e, s, hl, -, -, -, h⟩
    · rw [h]
    · rw [h, List.dropLast_concat]
  · rw [hhist]
    rcases hcases with h | ⟨e, s, hl, -, -, -, h⟩
    · rw [h]
    · rw [h, List.length_append, List.length_singleton, List.length_dropLast]
      have : st.history ≠ [] := hlast_ne e hl
      have : 1 ≤ st.history.length := by
        cases hst : st.history with
        | nil => exact absurd hst this
        | cons a l => simp
      omega
  · intro e he
    rw [hhist]
    rcases hcases with h | ⟨e2, s, hl, -, -, -, h⟩
    · exact ⟨e, by rw [h, he], rfl, rfl⟩
    · have he2 : e2 = e := by rw [hl] at he; exact Option.some_inj.mp he
      subst he2
      refine ⟨{ e2 with answer := s }, ?_, rfl, rfl⟩
      rw [h, List.getLast?_concat]
  · intro e s he hq himp hs
    rw [hhist]
    simp only [updateLastAnswer, he, himp]
    rw [if_pos hq, if_neg hs]
  · intro himp
    rw [hhist]
    simp only [updateLastAnswer, himp]
    cases hl : st.history.getLast? with
    | none => rfl
    | some e => simp
  · intro e he hq
    rw [hhist]
    simp only [updateLastAnswer, he]
    rw [if_neg hq]

theorem sortDesc_perm (l : List ConvView) : (sortDesc l).Perm l :=
  List.perm_insertionSort _ l

theorem sortDesc_sorted (l : List ConvView) :
    List.Sorted (fun a b => ratingKey b ≤ ratingKey a) (sortDesc l) :=
  List.sorted_insertionSort _ l

theorem head_filter_max {l : List ConvView} {p : ConvView → Bool} {g : ConvView}
    (hsorted : List.Sorted (fun a b => ratingKey b ≤ ratingKey a) l)
    (hg : (l.filter p).head? = some g) :
    ∀ c ∈ l, p c = true → ratingKey c ≤ ratingKey g := by
  have hfil := hsorted.filter p
  intro c hc hpc
  have hcf : c ∈ l.filter p := List.mem_filter.mpr ⟨hc, hpc⟩
  cases hlf : l.filter p with
  | nil => rw [hlf] at hcf; exact absurd hcf (by simp)
  | cons a rest =>
    rw [hlf] at hg hcf hfil
    have hga : g = a := by
      have := hg
      simp only [List.head?_cons, Option.some_inj] at this
      exact this.symm
    subst hga
    rcases List.mem_cons.mp hcf with rfl | hcr
    · exact le_refl _
    · exact (List.pairwise_cons.mp hfil).1 c hcr

theorem head_mem_of_filter {l : List ConvView} {p : ConvView → Bool} {g : ConvView}
    (hg : (l.filter p).head? = some g) : g ∈ l ∧ p g = true := by
  cases hlf : l.filter p with
  | nil => rw [hlf] at hg; exact absurd hg (by simp)
  | cons a rest =>
    rw [hlf] at hg
    simp only [List.head?_cons, Option.some_inj] at hg
    have hmem : g ∈ l.filter p := by
      rw [hlf, ← hg]
      exact List.mem_cons_self _ _
    exact ⟨(List.mem_filter.mp hmem).1, (List.mem_filter.mp hmem).2⟩

theorem firstBad_some {l : List ChromaRecord} (hex : ∃ r ∈ l, badMeta r = true) :
    ∃ r2, firstBad l = some r2 ∧ badMeta r2 = true := by
  induction l with
  | nil => obtain ⟨r, hr, -⟩ := hex; exact absurd hr (by simp)
  | cons r rs ih =>
    by_cases hb : badMeta r = true
    · exact ⟨r, by rw [firstBad, if_pos hb], hb⟩
    · obtain ⟨r2, hr2, hb2⟩ := hex
      rcases List.mem_cons.mp hr2 with rfl | hr2
      · exact absurd hb2 hb
      · obtain ⟨r3, h3, hb3⟩ := ih ⟨r2, hr2, hb2⟩
        exact ⟨r3, by rw [firstBad, if_neg hb, h3], hb3⟩

/-- C4 counterexample.  With two good candidates in similarity order — the
most similar rated 4, the next rated 5 — the retriever selects the rating-5
candidate: partitions are ordered by rating (descending), not by similarity
rank, so the claim's selection rule is false on the code. -/
theorem claim_C4_counterexample :
    find_similar_conversations_with_feedback
      [⟨"i4", "u", "t4", some 4, "q4", "a4", none, none⟩,
        ⟨"i5", "u", "t5", some 5, "q5", "a5", none, none⟩]
      [⟨"i4", "u", "t4", some 4, "q4", "a4", none, none⟩,
        ⟨"i5", "u", "t5", some 5, "q5", "a5", none, none⟩] 5 =
      [toView ⟨"i5", "u", "t5", some 5, "q5", "a5", none, none⟩] ∧
    toView ⟨"i5", "u", "t5", some 5, "q5", "a5", none, none⟩ ≠
      toView ⟨"i4", "u", "t4", some 4, "q4", "a4", none, none⟩ := by
  constructor
  · rfl
  · decide

/-- C4 (amended).  At most `min(3k, 15) ≤ 3k` candidates are requested; the
candidates are stably sorted by rating descending (missing ratings count as
0), not by similarity rank, and `created_at` plays no role; the selected
good example is the head of the good partition of that order — a good
candidate of maximal rating — and likewise the selected bad example is a bad
candidate of maximal rating (so rating 2 is preferred over rating 1). -/
theorem claim_C4_amended (ranked allUser : List ChromaRecord) (k : Nat) :
    (min (k * 3) 15 ≤ k * 3 ∧ (simResults ranked k).length ≤ min (k * 3) 15) ∧
    ((sortDesc ((simResults ranked k).map toView)).Perm
      ((simResults ranked k).map toView) ∧
      List.Sorted (fun a b => ratingKey b ≤ ratingKey a) (simViews ranked k)) ∧
    (∀ g, ((simViews ranked k).filter goodB).head? = some g →
      (find_similar_conversations_with_feedback ranked allUser k).head? = some g ∧
      goodB g = true ∧ g ∈ (simResults ranked k).map toView ∧
      (∀ c ∈ (simResults ranked k).map toView, goodB c = true →
        ratingKey c ≤ ratingKey g)) ∧
    (∀ b, ((simViews ranked k).filter badB).head? = some b →
      b ∈ find_similar_conversations_with_feedback ranked allUser k ∧
      badB b = true ∧
      (∀ c ∈ (simResults ranked k).map toView, badB c = true →
        ratingKey c ≤ ratingKey b)) := by
  refine ⟨⟨Nat.min_le_left _ _, ?_⟩, ⟨sortDesc_perm _, sortDesc_sorted _⟩, ?_, ?_⟩
  · rw [simResults, List.length_take]
    exact Nat.min_le_left _ _
  · intro g hg
    have hne : simResults ranked k ≠ [] := by
      intro h
      rw [simViews, h] at hg
      simp [sortDesc, List.insertionSort] at hg
    obtain ⟨hmem, hgood⟩ := head_mem_of_filter hg
    have hmem2 : g ∈ (simResults ranked k).map toView :=
      (sortDesc_perm _).subset (by rw [← simViews]; exact hmem)
    refine ⟨?_, hgood, hmem2, ?_⟩
    · rw [find_similar_conversations_with_feedback, if_neg hne, hg]
      rfl
    · intro c hc hgc
      exact head_filter_max (sortDesc_sorted _) hg c
        ((sortDesc_perm _).symm.subset (by rw [simViews] at *; exact hc)) hgc
  · intro b hb
    have hne : simResults ranked k ≠ [] := by
      intro h
      rw [simViews, h] at hb
      simp [sortDesc, List.insertionSort] at hb
    obtain ⟨hmem, hbad⟩ := head_mem_of_filter hb
    have hfilne : (simViews ranked k).filter badB ≠ [] := by
      intro h
      rw [h] at hb
      exact absurd hb (by simp)
    refine ⟨?_, hbad, ?_⟩
    · rw [find_similar_conversations_with_feedback, if_neg hne, hb, if_neg hfilne]
      exact List.mem_append.mpr (Or.inl (List.mem_append.mpr (Or.inr (by simp))))
    · intro c hc hbc
      exact head_filter_max (sortDesc_sorted _) hb c
        ((sortDesc_perm _).symm.subset (by rw [simViews] at *; exact hc)) hbc

/-- C4 witness.  The good-slot clause applied to the two-candidate example:
the rating-5 candidate heads the result. -/
theorem claim_C4_witness :
    (find_similar_conversations_with_feedback
      [⟨"i4", "u", "t4", some 4, "q4", "a4", none, none⟩,
        ⟨"i5", "u", "t5", some 5, "q5", "a5", none, none⟩]
      [⟨"i4", "u", "t4", some 4, "q4", "a4", none, none⟩,
        ⟨"i5", "u", "t5", some 5, "q5", "a5", none, none⟩] 5).head? =
      some (toView ⟨"i5", "u", "t5", some 5, "q5", "a5", none, none⟩) :=
  ((claim_C4_amended
    [⟨"i4", "u", "t4", some 4, "q4", "a4", none, none⟩,
      ⟨"i5", "u", "t5", some 5, "q5", "a5", none, none⟩]
    [⟨"i4", "u", "t4", some 4, "q4", "a4", none, none⟩,
      ⟨"i5", "u", "t5", some 5, "q5", "a5", none, none⟩] 5).2.2.1
    (toView ⟨"i5", "u", "t5", some 5, "q5", "a5", none, none⟩) (by decide)).1

/-- C5 counterexample.  A user with sixteen archived conversations — one bad
(rating 2), fourteen neutral (rating 3) and one good (rating 5) that ranks
least similar to the query — has both polarities in the archive, yet the
retriever's query returns only the top fifteen hits, the good conversation
is not among them and no fallback exists for the good side, so the result
has no good slot. -/
theorem claim_C5_counterexample :
    ((⟨"ib", "u", "tb", some 2, "qb", "ab", none, none⟩ ::
      (List.replicate 14 ⟨"im", "u", "tm", some 3, "qm", "am", none, none⟩ ++
        [⟨"ig", "u", "tg", some 5, "qg", "ag", none, none⟩]) :
          List ChromaRecord).any goodMeta = true) ∧
    ((⟨"ib", "u", "tb", some 2, "qb", "ab", none, none⟩ ::
      (List.replicate 14 ⟨"im", "u", "tm", some 3, "qm", "am", none, none⟩ ++
        [⟨"ig", "u", "tg", some 5, "qg", "ag", none, none⟩]) :
          List ChromaRecord).any badMeta = true) ∧
    ((find_similar_conversations_with_feedback
      (⟨"ib", "u", "tb", some 2, "qb", "ab", none, none⟩ ::
        (List.replicate 14 ⟨"im", "u", "tm", some 3, "qm", "am", none, none⟩ ++
          [⟨"ig", "u", "tg", some 5, "qg", "ag", none, none⟩]))
      (⟨"ib", "u", "tb", some 2, "qb", "ab", none, none⟩ ::
        (List.replicate 14 ⟨"im", "u", "tm", some 3, "qm", "am", none, none⟩ ++
          [⟨"ig", "u", "tg", some 5, "qg", "ag", none, none⟩])) 5).all
        (fun c => !(goodB c)) = true) := by
  refine ⟨?_, ?_, ?_⟩
  · decide
  · decide
  · decide

/-- C5 (amended).  With non-empty similarity results, the bad slot is filled
whenever any archived record is rated at most 2 (the full-scan fallback
guarantees it), but the good slot is filled only when a rating-at-least-4
record appears among the at most `min(3k, 15)` similarity hits — there is no
fallback broadening for the good side. -/
theorem claim_C5_amended (ranked allUser : List ChromaRecord) (k : Nat)
    (hne : simResults ranked k ≠ []) :
    ((∃ r ∈ allUser, badMeta r = true) →
      ∃ c ∈ find_similar_conversations_with_feedback ranked allUser k,
        badB c = true) ∧
    ((∃ r ∈ simResults ranked k, goodMeta r = true) →
      ∃ c ∈ find_similar_conversations_with_feedback ranked allUser k,
        goodB c = true) := by
  constructor
  · intro hex
    cases hfil : (simViews ranked k).filter badB with
    | cons b rest =>
      have hhb : ((simViews ranked k).filter badB).head? = some b := by rw [hfil]; rfl
      refine ⟨b, ?_, (head_mem_of_filter hhb).2⟩
      rw [find_similar_conversations_with_feedback, if_neg hne, hfil]
      refine List.mem_append.mpr (Or.inl (List.mem_append.mpr (Or.inr ?_)))
      simp
    | nil =>
      obtain ⟨r2, hr2, hb2⟩ := firstBad_some hex
      refine ⟨fallbackView r2, ?_, by rw [show badB (fallbackView r2) = badMeta r2 from rfl]; exact hb2⟩
      rw [find_similar_conversations_with_feedback, if_neg hne, hfil, if_pos rfl, hr2]
      refine List.mem_append.mpr (Or.inr ?_)
      simp
  · intro hex
    obtain ⟨r, hr, hg⟩ := hex
    have hmem : toView r ∈ simViews ranked k :=
      (sortDesc_perm _).symm.subset (List.mem_map_of_mem toView hr)
    have hfm : toView r ∈ (simViews ranked k).filter goodB :=
      List.mem_filter.mpr ⟨hmem, by rw [show goodB (toView r) = goodMeta r from rfl]; exact hg⟩
    cases hfil : (simViews ranked k).filter goodB with
    | nil => rw [hfil] at hfm; exact absurd hfm (by simp)
    | cons g rest =>
      have hhg : ((simViews ranked k).filter goodB).head? = some g := by rw [hfil]; rfl
      refine ⟨g, ?_, (head_mem_of_filter hhg).2⟩
      rw [find_similar_conversations_with_feedback, if_neg hne, hfil]
      exact List.mem_append.mpr (Or.inl (List.mem_append.mpr (Or.inl (by simp))))

/-- C5 witness.  One good and one bad hit among the similarity results: both
slots come back non-empty. -/
theorem claim_C5_witness :
    (∃ c ∈ find_similar_conversations_with_feedback
      [⟨"ib", "u", "tb", some 2, "qb", "ab", none, none⟩,
        ⟨"ig", "u", "tg", some 5, "qg", "ag", none, none⟩]
      [⟨"ib", "u", "tb", some 2, "qb", "ab", none, none⟩,
        ⟨"ig", "u", "tg", some 5, "qg", "ag", none, none⟩] 5, badB c = true) ∧
    (∃ c ∈ find_similar_conversations_with_feedback
      [⟨"ib", "u", "tb", some 2, "qb", "ab", none, none⟩,
        ⟨"ig", "u", "tg", some 5, "qg", "ag", none, none⟩]
      [⟨"ib", "u", "tb", some 2, "qb", "ab", none, none⟩,
        ⟨"ig", "u", "tg", some 5, "qg", "ag", none, none⟩] 5, goodB c = true) :=
  ⟨(claim_C5_amended
      [⟨"ib", "u", "tb", some 2, "qb", "ab", none, none⟩,
        ⟨"ig", "u", "tg", some 5, "qg", "ag", none, none⟩]
      [⟨"ib", "u", "tb", some 2, "qb", "ab", none, none⟩,
        ⟨"ig", "u", "tg", some 5, "qg", "ag", none, none⟩] 5 (by decide)).1
      ⟨⟨"ib", "u", "tb", some 2, "qb", "ab", none, none⟩, by decide, by decide⟩,
    (claim_C5_amended
      [⟨"ib", "u", "tb", some 2, "qb", "ab", none, none⟩,
        ⟨"ig", "u", "tg", some 5, "qg", "ag", none, none⟩]
      [⟨"ib", "u", "tb", some 2, "qb", "ab", none, none⟩,
        ⟨"ig", "u", "tg", some 5, "qg", "ag", none, none⟩] 5 (by decide)).2
      ⟨⟨"ig", "u", "tg", some 5, "qg", "ag", none, none⟩, by decide, by decide⟩⟩

theorem takeLast_length_le {α : Type} (n : Nat) (l : List α) :
    (takeLast n l).length ≤ n := by
  rw [takeLast, List.length_drop]
  omega

/-- C6 counterexample.  With an empty hot tier for user u1 and no
conversation id, the padding query runs unfiltered: the context returned to
u1 contains the turn of a conversation attributed to user u2, so the claim
that padding turns belong to the same user is false on the code. -/
theorem claim_C6_counterexample :
    get_conversation_context
      ⟨[("u1", [])], [⟨"m1", "convB", "hi", "yo", "t1"⟩], [("convB", "u2")]⟩
      "u1" none = [("hi", "yo")] ∧
    (⟨[("u1", [])], [⟨"m1", "convB", "hi", "yo", "t1"⟩], [("convB", "u2")]⟩ :
      ManagerState).messages.all (fun m => m.conversation_id = "convB") = true ∧
    (⟨[("u1", [])], [⟨"m1", "convB", "hi", "yo", "t1"⟩], [("convB", "u2")]⟩ :
      ManagerState).conversations_meta.lookup "convB" = some "u2" ∧
    "u2" ≠ "u1" := by
  refine ⟨?_, ?_, ?_, ?_⟩
  · rfl
  · decide
  · rfl
  · decide

/-- C6 (amended).  A resident conversation id returns up to that
conversation's last ten turns; otherwise the last two hot conversations'
last-three-turns each are flattened; when that hot context has at least five
turns the archive is never consulted (the result is independent of the
messages collection), and when it has fewer than five turns it is padded
with up to five archive messages filtered only by the given conversation id
— unfiltered, across all users, when no id is given — and the combined list
is truncated to its last ten elements. -/
theorem claim_C6_read_context (st : ManagerState) (uid : String) :
    (∀ c conv,
      (getRecent st uid).find? (fun cv => cv.conversation_id = c) = some conv →
      get_conversation_context st uid (some c) = takeLast 10 conv.messages) ∧
    (5 ≤ (hotContext st uid).length →
      get_conversation_context st uid none = takeLast 10 (hotContext st uid) ∧
      (∀ (M : List MsgRecord) (meta : List (String × String)),
        get_conversation_context ⟨st.recent, M, meta⟩ uid none =
          get_conversation_context st uid none)) ∧
    ((hotContext st uid).length < 5 →
      get_conversation_context st uid none =
        takeLast 10 (hotContext st uid ++ get_messages_from_vector_db st "" 5)) ∧
    (∀ c, (getRecent st uid).find? (fun cv => cv.conversation_id = c) = none →
      (hotContext st uid).length < 5 →
      get_conversation_context st uid (some c) =
        takeLast 10 (hotContext st uid ++ get_messages_from_vector_db st c 5)) ∧
    (∀ cid, (get_conversation_context st uid cid).length ≤ 10) := by
  have hhot : ∀ (M : List MsgRecord) (meta : List (String × String)),
      hotContext ⟨st.recent, M, meta⟩ uid = hotContext st uid := by
    intro M meta
    rfl
  refine ⟨?_, ?_, ?_, ?_, ?_⟩
  · intro c conv hfind
    rw [get_conversation_context, hfind]
  · intro hlen
    have hcond : ¬ ((hotContext st uid).length < 5) := by omega
    constructor
    · rw [get_conversation_context, generalContext, if_neg hcond]
    · intro M meta
      rw [get_conversation_context, get_conversation_context, generalContext,
        generalContext, hhot, if_neg hcond, if_neg hcond]
  · intro hlen
    rw [get_conversation_context, generalContext, if_pos hlen]
    rfl
  · intro c hfind hlen
    rw [get_conversation_context, hfind, generalContext, if_pos hlen]
    rfl
  · intro cid
    match cid with
    | none =>
      rw [get_conversation_context, generalContext]
      exact takeLast_length_le _ _
    | some c =>
      rw [get_conversation_context]
      cases hfind : (getRecent st uid).find? (fun cv => cv.conversation_id = c) with
      | some conv => exact takeLast_length_le _ _
      | none =>
        rw [generalContext]
        exact takeLast_length_le _ _

/-- C6 witness.  The padding clause applied to the concrete one-message
state: the empty hot context is padded from the archive. -/
theorem claim_C6_witness :
    get_conversation_context
      ⟨[("u1", [])], [⟨"m1", "convB", "hi", "yo", "t1"⟩], [("convB", "u2")]⟩
      "u1" none =
      takeLast 10 (hotContext
        ⟨[("u1", [])], [⟨"m1", "convB", "hi", "yo", "t1"⟩], [("convB", "u2")]⟩ "u1" ++
        get_messages_from_vector_db
          ⟨[("u1", [])], [⟨"m1", "convB", "hi", "yo", "t1"⟩], [("convB", "u2")]⟩
          "" 5) :=
  (claim_C6_read_context
    ⟨[("u1", [])], [⟨"m1", "convB", "hi", "yo", "t1"⟩], [("convB", "u2")]⟩
    "u1").2.2.1 (by decide)

/-- C10 witness.  A concrete SubmitFeedback whose improved answer replaces
the matching most-recent hot entry's answer in place. -/
theorem claim_C10_witness :
    (process_feedback_and_improve "u" "q" "a" 2 (some "f") "better" "i" "t" "c"
      ⟨[⟨"q0", "a0", "t0"⟩, ⟨"q", "a", "t1"⟩], [], []⟩).2.history =
      [⟨"q0", "a0", "t0"⟩] ++ [⟨"q", "better", "t1"⟩] := by
  have h := (claim_C10_hot_frame "u" "q" "a" 2 (some "f") "better" "i" "t" "c"
    ⟨[⟨"q0", "a0", "t0"⟩, ⟨"q", "a", "t1"⟩], [], []⟩).2.2.2.1
    ⟨"q", "a", "t1"⟩ "better" (by rfl) (by rfl) (by rfl) (by decide)
  rw [h]
  rfl

end JE

